import Mathlib

/-! # Upgrade bot: aggregation and assessment engine

A shallow embedding of `stats.go` (package `upgradebot`) and of the assessment
renderer of `markdown.go`, followed by theorems about it.

Conventions of the embedding.

* Go's `int` is a 64-bit two's-complement integer.  It is embedded as `Int`;
  every sum of values that come from the input (line counts, total
  modifications) is reduced by `wrapInt64`.  Counters that are incremented once
  per element of a slice are bounded by the slice's length and are left
  unreduced.
* A Go `map[string]V` is embedded as an association list with pairwise distinct
  keys (`GoMap V`).  Go leaves the order of `range` over a map unspecified: the
  order is an explicit argument (`MapOrder`), and `mapRange` turns it into an
  arbitrary rearrangement of the entries.
* `sort.SliceStable` is embedded as a stable insertion sort.  Every comparison
  function of the program is a strict weak order (a comparison of keys in a
  linear order), for which the stable sort of a sequence is unique.
* `getPullRequestStats` sorts `pr.Files` in place.  The slice shares its
  backing array with the caller's snapshot, so the function is embedded as
  returning both its result and the pull request as the caller sees it
  afterwards.  Distinct pull requests are taken not to share a backing array.
* A Go `string` is embedded as a Lean `String`; comparison of valid UTF-8
  strings by bytes agrees with comparison by code points.
-/

namespace UpgradeBot

/-! ## Machine integers -/

/-- Two's-complement reduction of an integer to Go's 64-bit `int`. -/
def wrapInt64 (x : Int) : Int := (x + 2 ^ 63) % 2 ^ 64 - 2 ^ 63

/-! ## Go maps -/

/-- A Go `map[string]V`: entries with pairwise distinct keys. -/
abbrev GoMap (V : Type) := List (String × V)

/-- The two-valued read `v, ok := m[k]`. -/
def mapLookup {V : Type} : GoMap V → String → Option V
  | [], _ => none
  | (k', v) :: rest, k => if k' = k then some v else mapLookup rest k

/-- The read `m[k]`, which yields the zero value of `V` for an absent key. -/
def mapGet {V : Type} (zero : V) (m : GoMap V) (k : String) : V :=
  (mapLookup m k).getD zero

/-- The write `m[k] = v`. -/
def mapStore {V : Type} : GoMap V → String → V → GoMap V
  | [], k, v => [(k, v)]
  | (k', v') :: rest, k, v =>
    if k' = k then (k', v) :: rest else (k', v') :: mapStore rest k v

/-- The keys of a map, in the order of their first insertion. -/
def mapKeys {V : Type} (m : GoMap V) : List String := m.map Prod.fst

/-- The order in which one `range` loop visits a map. -/
abbrev MapOrder := List Nat

/-- Puts `x` at position `n` of a list (at the end when the list is shorter). -/
def insertAt {α : Type} (x : α) : Nat → List α → List α
  | 0, l => x :: l
  | _ + 1, [] => [x]
  | n + 1, y :: ys => y :: insertAt x n ys

/-- The rearrangement of a list selected by a `MapOrder`. -/
def shuffle {α : Type} : MapOrder → List α → List α
  | _, [] => []
  | ord, x :: xs => insertAt x (ord.headD 0) (shuffle ord.tail xs)

/-- The sequence of entries visited by `for k, v := range m`. -/
def mapRange {V : Type} (ord : MapOrder) (m : GoMap V) : List (String × V) :=
  shuffle ord m

/-! ## Stable sorting -/

/-- Inserts `x`, which precedes every element of the list in the original
sequence, behind the elements that are strictly less than it. -/
def insertStable {α : Type} (less : α → α → Bool) (x : α) : List α → List α
  | [] => [x]
  | y :: ys => if less y x then y :: insertStable less x ys else x :: y :: ys

/-- The function `sort.SliceStable(s, less)`, as a function of the slice's content. -/
def sortSliceStable {α : Type} (less : α → α → Bool) (l : List α) : List α :=
  l.foldr (insertStable less) []

/-- A comparison of keys in a linear order, as every `less` of the program is. -/
def IsKeyLess {α κ : Type} [LinearOrder κ] (less : α → α → Bool) (key : α → κ) : Prop :=
  ∀ a b, less a b = true ↔ key a < key b

/-! ## Data model -/

/-- Modelled from the spec: the type `File`, whose declaration is not part of
the sources.  `stats.go` and `markdown.go` read the fields `Filename`, `Status`,
`Additions`, `Deletions` and `Changes`. -/
structure File where
  Filename : String
  Status : String
  Additions : Int
  Deletions : Int
  Changes : Int
deriving DecidableEq

/-- The zero value of `File`. -/
def File.zero : File := ⟨"", "", 0, 0, 0⟩

/-- Modelled from the spec: the method `getTotalModifications`, whose
declaration is not part of the sources: "total modifications = additions +
deletions", computed on Go's `int`. -/
def File.getTotalModifications (f : File) : Int :=
  wrapInt64 (f.Additions + f.Deletions)

/-- Modelled from the spec: the type `PullRequestData`, whose declaration is
not part of the sources.  The program reads `Number`, `HtmlUrl`, `Title` and
`ClosedAt`. -/
structure PullRequestData where
  Number : Int
  HtmlUrl : String
  Title : String
  ClosedAt : String
deriving DecidableEq

/-- Modelled from the spec: the type `PullRequest` (a record with its files),
whose declaration is not part of the sources. -/
structure PullRequest where
  Data : PullRequestData
  Files : List File
deriving DecidableEq

/-- Modelled from the spec: the type `TagCompare` (the snapshot), whose
declaration is not part of the sources. -/
structure TagCompare where
  PullRequests : List PullRequest
  Files : List File
deriving DecidableEq

/-- The type `Assessment` is `string`. -/
abbrev Assessment := String

def Good : Assessment := "Good"
def Warning : Assessment := "Warning"
def Conflict : Assessment := "Conflict"

structure PackageStats where
  Name : String
  Count : Int
deriving DecidableEq

structure PullRequestStats where
  Data : PullRequestData
  FilesAddedCount : Int
  FilesRemovedCount : Int
  FilesModifiedCount : Int
  LinesAddedCount : Int
  LinesRemovedCount : Int
  TopFilesChanged : List File
  TopPackagesChanged : List PackageStats
  Assessment : Assessment
deriving DecidableEq

structure ChangedFileStats where
  AssociatedPRs : List PullRequestData
  File : File
  Assessment : Assessment
deriving DecidableEq

structure Analysis where
  prStats : List PullRequestStats
  fileStats : List ChangedFileStats
deriving DecidableEq

/-! ## `getPullRequestStats` -/

/-- Scans for the last occurrence of `c`: `i` is the index of the head of the
list, `acc` the result so far. -/
def lastIndexFrom (c : Char) : Nat → Int → List Char → Int
  | _, acc, [] => acc
  | i, acc, x :: xs => lastIndexFrom c (i + 1) (if x = c then (i : Int) else acc) xs

/-- The call `strings.LastIndex(s, "/")`: the index of the last `/`, or `-1`.
The index counts characters; it is positive exactly when the byte index is, and
it cuts the string at the same place. -/
def lastIndexSlash (s : String) : Int := lastIndexFrom '/' 0 (-1) s.data

/-- The package bucket key computed for a file name (lines 94 to 98). -/
def packagePath (filename : String) : String :=
  let lastIndex := lastIndexSlash filename
  if lastIndex > 0 then String.mk (filename.data.take lastIndex.toNat) else filename

/-- The value of `PullRequestStats{}` with `Data` set (lines 77 to 79). -/
def initStats (data : PullRequestData) : PullRequestStats :=
  ⟨data, 0, 0, 0, 0, 0, [], [], ""⟩

/-- One iteration of the loop over `pr.Files` (lines 83 to 109), on the pair of
`stats` and `mapPackageChanged`. -/
def fileStep (mapFileAssessment : GoMap Assessment)
    (st : PullRequestStats × GoMap Int) (file : File) : PullRequestStats × GoMap Int :=
  let stats := st.1
  let mapPackageChanged := st.2
  let stats := { stats with Assessment := Good }
  let val := mapGet "" mapFileAssessment file.Filename
  let ok := (mapLookup mapFileAssessment file.Filename).isSome
  let stats :=
    if stats.Assessment = Good ∧ ok = true then
      if stats.Assessment ≠ Conflict then { stats with Assessment := val } else stats
    else stats
  let stats := { stats with LinesAddedCount := wrapInt64 (stats.LinesAddedCount + file.Additions) }
  let stats := { stats with LinesRemovedCount := wrapInt64 (stats.LinesRemovedCount + file.Deletions) }
  let key := packagePath file.Filename
  let mapPackageChanged := mapStore mapPackageChanged key (mapGet 0 mapPackageChanged key + 1)
  let stats :=
    if file.Status = "added" then
      { stats with FilesAddedCount := stats.FilesAddedCount + 1 }
    else if file.Status = "modified" then
      { stats with FilesModifiedCount := stats.FilesModifiedCount + 1 }
    else
      { stats with FilesRemovedCount := stats.FilesRemovedCount + 1 }
  (stats, mapPackageChanged)

/-- The statement of line 99 on `mapPackageChanged`. -/
def countPackage (mapPackageChanged : GoMap Int) (key : String) : GoMap Int :=
  mapStore mapPackageChanged key (mapGet 0 mapPackageChanged key + 1)

/-- The comparison of line 112. -/
def moreModified (a b : File) : Bool :=
  decide (a.getTotalModifications > b.getTotalModifications)

/-- The comparison of line 129. -/
def moreFiles (a b : PackageStats) : Bool := decide (a.Count > b.Count)

/-- The function `getPullRequestStats`.  `ord` is the order in which the loop of
line 120 visits `mapPackageChanged`.  The result is the returned statistics and
the pull request as the caller sees it afterwards, its files sorted in place by
line 111.  The bound `int(math.Min(float64(len(pr.Files)), 5))` is the smaller
of the length and 5: the conversion to `float64` is monotone and exact on 5. -/
def getPullRequestStats (pr : PullRequest) (mapFileAssessment : GoMap Assessment)
    (ord : MapOrder) : PullRequestStats × PullRequest :=
  let st := pr.Files.foldl (fileStep mapFileAssessment) (initStats pr.Data, [])
  let stats := st.1
  let mapPackageChanged := st.2
  let files := sortSliceStable moreModified pr.Files
  let stats := { stats with TopFilesChanged := files.take (min files.length 5) }
  let packages := (mapRange ord mapPackageChanged).map (fun kv => PackageStats.mk kv.1 kv.2)
  let stats := { stats with TopPackagesChanged := sortSliceStable moreFiles packages }
  (stats, { pr with Files := files })

/-! ## `getChangedFilesStats` -/

/-- The loop of lines 139 to 142 on the pair of `prsPerFile` and `filePerFile`. -/
def registerFile (st : GoMap (List PullRequestData) × GoMap File) (file : File) :
    GoMap (List PullRequestData) × GoMap File :=
  (mapStore st.1 file.Filename [], mapStore st.2 file.Filename file)

/-- The statement of line 146. -/
def associate (data : PullRequestData) (prsPerFile : GoMap (List PullRequestData))
    (file : File) : GoMap (List PullRequestData) :=
  mapStore prsPerFile file.Filename (mapGet [] prsPerFile file.Filename ++ [data])

/-- The inner loop of lines 145 to 147. -/
def associatePR (prsPerFile : GoMap (List PullRequestData)) (pr : PullRequest) :
    GoMap (List PullRequestData) :=
  pr.Files.foldl (associate pr.Data) prsPerFile

/-- The comparison of line 159. -/
def moreModifiedStats (a b : ChangedFileStats) : Bool :=
  decide (a.File.getTotalModifications > b.File.getTotalModifications)

/-- The function `getChangedFilesStats`.  `ord` is the order in which the loop
of line 153 visits `prsPerFile`. -/
def getChangedFilesStats (tagCompare : TagCompare) (mapFileAssessment : GoMap Assessment)
    (ord : MapOrder) : List ChangedFileStats :=
  let st := tagCompare.Files.foldl registerFile ([], [])
  let filePerFile := st.2
  let prsPerFile := tagCompare.PullRequests.foldl associatePR st.1
  let stats := (mapRange ord prsPerFile).map (fun kv =>
    ChangedFileStats.mk kv.2 (mapGet File.zero filePerFile kv.1)
      (mapGet "" mapFileAssessment kv.1))
  sortSliceStable moreModifiedStats stats

/-! ## `GetAnalysis` -/

/-- The pre-processing of lines 54 to 60. -/
def buildAssessmentMap (filesChangedByQuorum expectedFileConflicts : List String) :
    GoMap Assessment :=
  let m := filesChangedByQuorum.foldl (fun m file => mapStore m file Warning) []
  expectedFileConflicts.foldl (fun m file => mapStore m file Conflict) m

/-- The loop of lines 63 to 65: the statistics of every pull request together
with the pull request as it is afterwards.  `ords` holds, per pull request, the
order in which its `mapPackageChanged` is visited. -/
def processPullRequests (mapFileAssessment : GoMap Assessment) :
    List PullRequest → List MapOrder → List (PullRequestStats × PullRequest)
  | [], _ => []
  | pr :: rest, ords =>
    getPullRequestStats pr mapFileAssessment (ords.headD [])
      :: processPullRequests mapFileAssessment rest ords.tail

/-- The comparison of line 68. -/
def closedEarlier (a b : PullRequestStats) : Bool :=
  decide (a.Data.ClosedAt < b.Data.ClosedAt)

/-- The function `GetAnalysis`, returning the analysis and the snapshot as the
caller sees it afterwards.  `prOrds` and `fileOrd` are the orders in which the
maps of the run are visited. -/
def runGetAnalysis (tagCompare : TagCompare)
    (filesChangedByQuorum expectedFileConflicts : List String)
    (prOrds : List MapOrder) (fileOrd : MapOrder) : Analysis × TagCompare :=
  let mapFileAssessment := buildAssessmentMap filesChangedByQuorum expectedFileConflicts
  let results := processPullRequests mapFileAssessment tagCompare.PullRequests prOrds
  let tagCompare := { tagCompare with PullRequests := results.map Prod.snd }
  let prStats := sortSliceStable closedEarlier (results.map Prod.fst)
  let fileStats := getChangedFilesStats tagCompare mapFileAssessment fileOrd
  (⟨prStats, fileStats⟩, tagCompare)

/-- The value returned by `GetAnalysis`. -/
def GetAnalysis (tagCompare : TagCompare)
    (filesChangedByQuorum expectedFileConflicts : List String)
    (prOrds : List MapOrder) (fileOrd : MapOrder) : Analysis :=
  (runGetAnalysis tagCompare filesChangedByQuorum expectedFileConflicts prOrds fileOrd).1

/-! ## `getAssessmentEmoji` -/

/-- The function `getAssessmentEmoji` of `markdown.go`. -/
def getAssessmentEmoji (assessment : Assessment) : String :=
  if assessment = Conflict then "‼️"
  else if assessment = Warning then "⚠️"
  else "✅"

/-- The severity order of the specification, Clean < Warning < Conflict, on the
values of `Assessment`: every value other than `Warning` and `Conflict` counts
as Clean, as in `getAssessmentEmoji`. -/
def severity (a : Assessment) : Nat :=
  if a = Conflict then 2 else if a = Warning then 1 else 0

/-- The three symbols of the legend that `CreateMarkdownAnalysisSection` writes
(lines 62 to 64 of `markdown.go`): no conflict expected, review required,
conflicts expected. -/
def legendSymbols : List String := ["✅", "⚠", "‼️"]

/-! ## Comparing two runs -/

/-- Two statistics of one pull request that agree in every field, except that
their `TopPackagesChanged` hold the same entries in possibly different orders. -/
def agreeUpToPackageOrder (s s' : PullRequestStats) : Prop :=
  { s with TopPackagesChanged := [] } = { s' with TopPackagesChanged := [] }
    ∧ s.TopPackagesChanged.Perm s'.TopPackagesChanged

/-! # Theorems -/

/-! ## Go maps: reads after writes -/

theorem mapLookup_mapStore_same {V : Type} (m : GoMap V) (k : String) (v : V) :
    mapLookup (mapStore m k v) k = some v := by
  induction m with
  | nil => simp [mapStore, mapLookup]
  | cons e rest ih =>
    obtain ⟨k', v'⟩ := e
    by_cases h : k' = k
    · simp [mapStore, mapLookup, h]
    · simp [mapStore, mapLookup, h, ih]

theorem mapLookup_mapStore_other {V : Type} (m : GoMap V) (k k' : String) (v : V)
    (h : k ≠ k') : mapLookup (mapStore m k v) k' = mapLookup m k' := by
  induction m with
  | nil => simp [mapStore, mapLookup, h]
  | cons e rest ih =>
    obtain ⟨k₀, v₀⟩ := e
    by_cases h₀ : k₀ = k
    · subst h₀
      simp [mapStore, mapLookup, h]
    · simp only [mapStore, h₀, if_false, mapLookup, ih]

/-- Storing one constant under every key of a list: the listed keys read that
constant, all other keys are unchanged. -/
theorem mapLookup_foldl_store {V : Type} (c : V) (keys : List String) (m : GoMap V)
    (p : String) :
    mapLookup (keys.foldl (fun m file => mapStore m file c) m) p
      = if p ∈ keys then some c else mapLookup m p := by
  induction keys generalizing m with
  | nil => simp
  | cons k ks ih =>
    rw [List.foldl_cons, ih]
    by_cases hp : p ∈ ks
    · simp [hp]
    · by_cases hk : k = p
      · subst hk
        simp [hp, mapLookup_mapStore_same]
      · have : ¬ p = k := fun h => hk h.symm
        simp [hp, this, mapLookup_mapStore_other _ _ _ _ hk]

/-- The reading of the assessment map at any path. -/
theorem mapLookup_buildAssessmentMap (warn conf : List String) (p : String) :
    mapLookup (buildAssessmentMap warn conf) p
      = if p ∈ conf then some Conflict else if p ∈ warn then some Warning else none := by
  unfold buildAssessmentMap
  simp only [mapLookup_foldl_store]
  rfl

/-- C1: in the mapping that `GetAnalysis` builds from the warning paths and the
conflict paths, every path of the conflict list maps to `Conflict`, whether or
not it also occurs in the warning list. -/
theorem conflict_path_maps_to_Conflict (filesChangedByQuorum expectedFileConflicts : List String)
    (p : String) (h : p ∈ expectedFileConflicts) :
    mapLookup (buildAssessmentMap filesChangedByQuorum expectedFileConflicts) p
      = some Conflict := by
  rw [mapLookup_buildAssessmentMap, if_pos h]

theorem conflict_path_maps_to_Conflict_witness :
    "a/x.go" ∈ ["b.go", "a/x.go"] ∧
    mapLookup (buildAssessmentMap ["a/x.go", "c.go"] ["b.go", "a/x.go"]) "a/x.go"
      = some Conflict :=
  ⟨by decide, conflict_path_maps_to_Conflict ["a/x.go", "c.go"] ["b.go", "a/x.go"] "a/x.go"
    (by decide)⟩

theorem insertAt_nil {α : Type} (x : α) (n : Nat) : insertAt x n [] = [x] := by
  cases n <;> rfl

theorem shuffle_singleton {α : Type} (ord : MapOrder) (x : α) : shuffle ord [x] = [x] := by
  simp [shuffle, insertAt_nil]

/-- C2: the end-to-end example.  One pull request (number 1, closed at "t1")
with the single file "a/x.go" (modified, 5 additions, 2 deletions), the same
file in the flat list, "a/x.go" as only warning path and no conflict path:
`GetAnalysis` returns exactly one `PullRequestStats`, with one modified file, 5
lines added, 2 removed and assessment `Warning`, and exactly one
`ChangedFileStats`, for "a/x.go", associated with that pull request and assessed
`Warning`.  The fields the example leaves open and the orders of the map
iterations are arbitrary. -/
theorem GetAnalysis_end_to_end_example (url title : String) (changes : Int)
    (prOrds : List MapOrder) (fileOrd : MapOrder) :
    GetAnalysis
        ⟨[⟨⟨1, url, title, "t1"⟩, [⟨"a/x.go", "modified", 5, 2, changes⟩]⟩],
          [⟨"a/x.go", "modified", 5, 2, changes⟩]⟩
        ["a/x.go"] [] prOrds fileOrd
      = ⟨[⟨⟨1, url, title, "t1"⟩, 0, 0, 1, 5, 2, [⟨"a/x.go", "modified", 5, 2, changes⟩],
            [⟨"a", 1⟩], Warning⟩],
         [⟨[⟨1, url, title, "t1"⟩], ⟨"a/x.go", "modified", 5, 2, changes⟩, Warning⟩]⟩ := by
  have hp : packagePath "a/x.go" = "a" := by decide
  have hl : mapLookup (buildAssessmentMap ["a/x.go"] []) "a/x.go" = some Warning := by decide
  simp [GetAnalysis, runGetAnalysis, processPullRequests, getPullRequestStats,
    getChangedFilesStats, fileStep, initStats, hp, hl, mapGet, mapStore, mapLookup,
    mapRange, shuffle_singleton, sortSliceStable, insertStable, registerFile, associatePR,
    associate, Good, Warning, Conflict, wrapInt64]

/-! ## Stable sorting: rearrangement, order, stability -/

theorem insertStable_perm {α : Type} (less : α → α → Bool) (x : α) (l : List α) :
    (insertStable less x l).Perm (x :: l) := by
  induction l with
  | nil => exact List.Perm.refl _
  | cons y ys ih =>
    unfold insertStable
    split
    · exact ((List.Perm.cons y ih).trans (List.Perm.swap x y ys))
    · exact List.Perm.refl _

theorem sortSliceStable_cons {α : Type} (less : α → α → Bool) (x : α) (l : List α) :
    sortSliceStable less (x :: l) = insertStable less x (sortSliceStable less l) := rfl

theorem sortSliceStable_perm {α : Type} (less : α → α → Bool) (l : List α) :
    (sortSliceStable less l).Perm l := by
  induction l with
  | nil => exact List.Perm.refl _
  | cons x xs ih =>
    rw [sortSliceStable_cons]
    exact (insertStable_perm less x _).trans (List.Perm.cons x ih)

theorem sortSliceStable_length {α : Type} (less : α → α → Bool) (l : List α) :
    (sortSliceStable less l).length = l.length :=
  (sortSliceStable_perm less l).length_eq

theorem mem_sortSliceStable {α : Type} (less : α → α → Bool) (l : List α) (a : α) :
    a ∈ sortSliceStable less l ↔ a ∈ l :=
  (sortSliceStable_perm less l).mem_iff

theorem insertStable_sorted {α κ : Type} [LinearOrder κ] {less : α → α → Bool} {key : α → κ}
    (hk : IsKeyLess less key) (x : α) (l : List α)
    (hl : l.Pairwise (fun a b => key a ≤ key b)) :
    (insertStable less x l).Pairwise (fun a b => key a ≤ key b) := by
  induction l with
  | nil => simp [insertStable]
  | cons y ys ih =>
    rw [List.pairwise_cons] at hl
    unfold insertStable
    split
    · rename_i hyx
      rw [List.pairwise_cons]
      refine ⟨?_, ih hl.2⟩
      intro b hb
      have hb' := (insertStable_perm less x ys).mem_iff.mp hb
      rw [List.mem_cons] at hb'
      rcases hb' with rfl | hb'
      · exact le_of_lt ((hk y b).mp hyx)
      · exact hl.1 b hb'
    · rename_i hyx
      have hxy : key x ≤ key y := not_lt.mp (fun h => hyx ((hk y x).mpr h))
      rw [List.pairwise_cons]
      refine ⟨?_, List.pairwise_cons.mpr hl⟩
      intro b hb
      rw [List.mem_cons] at hb
      rcases hb with rfl | hb
      · exact hxy
      · exact le_trans hxy (hl.1 b hb)

/-- The result of a stable sort is in non-decreasing order of the key. -/
theorem sortSliceStable_sorted {α κ : Type} [LinearOrder κ] {less : α → α → Bool}
    {key : α → κ} (hk : IsKeyLess less key) (l : List α) :
    (sortSliceStable less l).Pairwise (fun a b => key a ≤ key b) := by
  induction l with
  | nil => exact List.Pairwise.nil
  | cons x xs ih =>
    rw [sortSliceStable_cons]
    exact insertStable_sorted hk x _ ih

theorem insertStable_filter {α κ : Type} [LinearOrder κ] {less : α → α → Bool} {key : α → κ}
    (hk : IsKeyLess less key) (p : α → Bool)
    (hp : ∀ a b, p a = true → p b = true → key a = key b) (x : α) (l : List α) :
    (insertStable less x l).filter p = (x :: l).filter p := by
  induction l with
  | nil => rfl
  | cons y ys ih =>
    unfold insertStable
    split
    · rename_i hyx
      have hlt : key y < key x := (hk y x).mp hyx
      rw [List.filter_cons, ih]
      by_cases hy : p y = true
      · have hx : ¬ p x = true := fun hx => absurd (hp y x hy hx) (ne_of_lt hlt)
        simp [List.filter_cons, hy, hx]
      · simp [List.filter_cons, hy]
    · rfl

/-- The sort is stable: elements of equal key keep their original order. -/
theorem sortSliceStable_filter {α κ : Type} [LinearOrder κ] {less : α → α → Bool}
    {key : α → κ} (hk : IsKeyLess less key) (p : α → Bool)
    (hp : ∀ a b, p a = true → p b = true → key a = key b) (l : List α) :
    (sortSliceStable less l).filter p = l.filter p := by
  induction l with
  | nil => rfl
  | cons x xs ih =>
    rw [sortSliceStable_cons, insertStable_filter hk p hp, List.filter_cons, List.filter_cons, ih]

theorem closedEarlier_isKeyLess :
    IsKeyLess closedEarlier (fun s : PullRequestStats => s.Data.ClosedAt) := by
  intro a b
  simp [closedEarlier]

theorem moreModified_isKeyLess :
    IsKeyLess moreModified (fun f : File => OrderDual.toDual f.getTotalModifications) := by
  intro a b
  simp [moreModified]

theorem moreModifiedStats_isKeyLess :
    IsKeyLess moreModifiedStats
      (fun s : ChangedFileStats => OrderDual.toDual s.File.getTotalModifications) := by
  intro a b
  simp [moreModifiedStats]

theorem moreFiles_isKeyLess :
    IsKeyLess moreFiles (fun p : PackageStats => OrderDual.toDual p.Count) := by
  intro a b
  simp [moreFiles]

/-! ## The loop of `getPullRequestStats` -/

theorem fileStep_Data (m : GoMap Assessment) (st : PullRequestStats × GoMap Int) (file : File) :
    (fileStep m st file).1.Data = st.1.Data := by
  unfold fileStep
  dsimp only
  split_ifs <;> rfl

theorem foldl_fileStep_Data (m : GoMap Assessment) (fs : List File)
    (st : PullRequestStats × GoMap Int) :
    (fs.foldl (fileStep m) st).1.Data = st.1.Data := by
  induction fs generalizing st with
  | nil => rfl
  | cons f fs ih => rw [List.foldl_cons, ih, fileStep_Data]

theorem getPullRequestStats_Data (pr : PullRequest) (m : GoMap Assessment) (ord : MapOrder) :
    (getPullRequestStats pr m ord).1.Data = pr.Data := by
  simp [getPullRequestStats, foldl_fileStep_Data, initStats]

theorem getPullRequestStats_snd (pr : PullRequest) (m : GoMap Assessment) (ord : MapOrder) :
    (getPullRequestStats pr m ord).2 = ⟨pr.Data, sortSliceStable moreModified pr.Files⟩ := rfl

theorem fileStep_counts (m : GoMap Assessment) (st : PullRequestStats × GoMap Int)
    (file : File) :
    (fileStep m st file).1.FilesAddedCount + (fileStep m st file).1.FilesModifiedCount
        + (fileStep m st file).1.FilesRemovedCount
      = st.1.FilesAddedCount + st.1.FilesModifiedCount + st.1.FilesRemovedCount + 1 := by
  unfold fileStep
  dsimp only
  split_ifs <;> dsimp only <;> ring

theorem foldl_fileStep_counts (m : GoMap Assessment) (fs : List File)
    (st : PullRequestStats × GoMap Int) :
    (fs.foldl (fileStep m) st).1.FilesAddedCount + (fs.foldl (fileStep m) st).1.FilesModifiedCount
        + (fs.foldl (fileStep m) st).1.FilesRemovedCount
      = st.1.FilesAddedCount + st.1.FilesModifiedCount + st.1.FilesRemovedCount
        + (fs.length : Int) := by
  induction fs generalizing st with
  | nil => simp
  | cons f fs ih =>
    rw [List.foldl_cons, ih, fileStep_counts, List.length_cons]
    push_cast
    ring

/-! ## The loop of `GetAnalysis` -/

theorem processPullRequests_length (m : GoMap Assessment) (prs : List PullRequest)
    (ords : List MapOrder) : (processPullRequests m prs ords).length = prs.length := by
  induction prs generalizing ords with
  | nil => rfl
  | cons pr rest ih => simp [processPullRequests, ih]

theorem processPullRequests_Data (m : GoMap Assessment) (prs : List PullRequest)
    (ords : List MapOrder) :
    ((processPullRequests m prs ords).map Prod.fst).map (fun s => s.Data)
      = prs.map (fun pr => pr.Data) := by
  induction prs generalizing ords with
  | nil => rfl
  | cons pr rest ih =>
    simp only [processPullRequests, List.map_cons, getPullRequestStats_Data]
    rw [ih]

theorem processPullRequests_snd (m : GoMap Assessment) (prs : List PullRequest)
    (ords : List MapOrder) :
    (processPullRequests m prs ords).map Prod.snd
      = prs.map (fun pr => ⟨pr.Data, sortSliceStable moreModified pr.Files⟩) := by
  induction prs generalizing ords with
  | nil => rfl
  | cons pr rest ih =>
    simp only [processPullRequests, List.map_cons, getPullRequestStats_snd]
    rw [ih]

/-- C5: `GetAnalysis`'s `prStats` has exactly one entry per input pull request
and is the stable ascending sort by `ClosedAt`, compared as strings, of the
per-pull-request statistics taken in snapshot order: it is a rearrangement of
them, every entry's `ClosedAt` is at most that of every later entry, and the
entries of any one `ClosedAt` keep their snapshot order.  On the timestamps
"2021-01-01", "2021-01-01", "2020-12-31" the output order is third, first,
second. -/
theorem prStats_stable_ascending_by_ClosedAt (tagCompare : TagCompare)
    (filesChangedByQuorum expectedFileConflicts : List String)
    (prOrds : List MapOrder) (fileOrd : MapOrder) :
    (GetAnalysis tagCompare filesChangedByQuorum expectedFileConflicts prOrds fileOrd).prStats.length
        = tagCompare.PullRequests.length
    ∧ ((processPullRequests (buildAssessmentMap filesChangedByQuorum expectedFileConflicts)
          tagCompare.PullRequests prOrds).map Prod.fst).map (fun s => s.Data)
        = tagCompare.PullRequests.map (fun pr => pr.Data)
    ∧ (GetAnalysis tagCompare filesChangedByQuorum expectedFileConflicts prOrds fileOrd).prStats.Perm
        ((processPullRequests (buildAssessmentMap filesChangedByQuorum expectedFileConflicts)
          tagCompare.PullRequests prOrds).map Prod.fst)
    ∧ (GetAnalysis tagCompare filesChangedByQuorum expectedFileConflicts prOrds
          fileOrd).prStats.Pairwise (fun a b => a.Data.ClosedAt ≤ b.Data.ClosedAt)
    ∧ (∀ t : String,
        (GetAnalysis tagCompare filesChangedByQuorum expectedFileConflicts prOrds
            fileOrd).prStats.filter (fun s => decide (s.Data.ClosedAt = t))
          = ((processPullRequests (buildAssessmentMap filesChangedByQuorum expectedFileConflicts)
              tagCompare.PullRequests prOrds).map Prod.fst).filter
                (fun s => decide (s.Data.ClosedAt = t)))
    ∧ (∀ (n₁ n₂ n₃ : Int) (u₁ u₂ u₃ t₁ t₂ t₃ : String) (fs₁ fs₂ fs₃ files : List File),
        (GetAnalysis
            ⟨[⟨⟨n₁, u₁, t₁, "2021-01-01"⟩, fs₁⟩, ⟨⟨n₂, u₂, t₂, "2021-01-01"⟩, fs₂⟩,
              ⟨⟨n₃, u₃, t₃, "2020-12-31"⟩, fs₃⟩], files⟩
            filesChangedByQuorum expectedFileConflicts prOrds fileOrd).prStats.map
              (fun s => s.Data)
          = [⟨n₃, u₃, t₃, "2020-12-31"⟩, ⟨n₁, u₁, t₁, "2021-01-01"⟩,
              ⟨n₂, u₂, t₂, "2021-01-01"⟩]) := by
  refine ⟨?_, processPullRequests_Data _ _ _, sortSliceStable_perm _ _,
    sortSliceStable_sorted closedEarlier_isKeyLess _,
    fun t => sortSliceStable_filter closedEarlier_isKeyLess _
      (fun a b ha hb => (of_decide_eq_true ha).trans (of_decide_eq_true hb).symm) _, ?_⟩
  · simp [GetAnalysis, runGetAnalysis, sortSliceStable_length, processPullRequests_length]
  · intro n₁ n₂ n₃ u₁ u₂ u₃ t₁ t₂ t₃ fs₁ fs₂ fs₃ files
    have h₂ : (("2020-12-31" : String) < "2021-01-01") := by
      rw [String.lt_iff_toList_lt]
      decide
    simp [GetAnalysis, runGetAnalysis, processPullRequests, sortSliceStable, insertStable,
      closedEarlier, getPullRequestStats_Data, h₂]

/-- C7: the three file counts returned by `getPullRequestStats` add up to the
number of files of the pull request. -/
theorem file_counts_add_up (pr : PullRequest) (mapFileAssessment : GoMap Assessment)
    (ord : MapOrder) :
    (getPullRequestStats pr mapFileAssessment ord).1.FilesAddedCount
        + (getPullRequestStats pr mapFileAssessment ord).1.FilesModifiedCount
        + (getPullRequestStats pr mapFileAssessment ord).1.FilesRemovedCount
      = (pr.Files.length : Int) := by
  have h := foldl_fileStep_counts mapFileAssessment pr.Files (initStats pr.Data, [])
  simpa [getPullRequestStats, initStats] using h

theorem getPullRequestStats_TopFilesChanged (pr : PullRequest) (m : GoMap Assessment)
    (ord : MapOrder) :
    (getPullRequestStats pr m ord).1.TopFilesChanged
      = (sortSliceStable moreModified pr.Files).take (min pr.Files.length 5) := by
  simp [getPullRequestStats, sortSliceStable_length]

theorem sorted_moreModified (fs : List File) :
    (sortSliceStable moreModified fs).Pairwise
      (fun a b => a.getTotalModifications ≥ b.getTotalModifications) :=
  sortSliceStable_sorted moreModified_isKeyLess fs

theorem stable_moreModified (k : Int) (fs : List File) :
    (sortSliceStable moreModified fs).filter (fun f => decide (f.getTotalModifications = k))
      = fs.filter (fun f => decide (f.getTotalModifications = k)) :=
  sortSliceStable_filter moreModified_isKeyLess _
    (fun a b ha hb => by
      have ha' : a.getTotalModifications = k := of_decide_eq_true ha
      have hb' : b.getTotalModifications = k := of_decide_eq_true hb
      show OrderDual.toDual a.getTotalModifications = OrderDual.toDual b.getTotalModifications
      rw [ha', hb']) fs

/-- C6: `TopFilesChanged` is the first min(5, n) elements of the stable
descending sort of the pull request's n files by total modifications.  That sort
is the content of `pr.Files` after the call: a rearrangement of the files, in
non-increasing order of the total, in which the files of any one total keep
their original order.  Hence `TopFilesChanged` has length min(5, n), is in
non-increasing order, every file left out has a total no greater than every
file kept, and the kept files of any one total are the first ones of that total
in the original list, in their original order. -/
theorem TopFilesChanged_is_top_five (pr : PullRequest) (mapFileAssessment : GoMap Assessment)
    (ord : MapOrder) :
    (getPullRequestStats pr mapFileAssessment ord).1.TopFilesChanged
        = (getPullRequestStats pr mapFileAssessment ord).2.Files.take (min 5 pr.Files.length)
    ∧ (getPullRequestStats pr mapFileAssessment ord).2.Files.Perm pr.Files
    ∧ (getPullRequestStats pr mapFileAssessment ord).2.Files.Pairwise
        (fun a b => a.getTotalModifications ≥ b.getTotalModifications)
    ∧ (∀ k : Int,
        (getPullRequestStats pr mapFileAssessment ord).2.Files.filter
            (fun f => decide (f.getTotalModifications = k))
          = pr.Files.filter (fun f => decide (f.getTotalModifications = k)))
    ∧ (getPullRequestStats pr mapFileAssessment ord).1.TopFilesChanged.length
        = min 5 pr.Files.length
    ∧ (getPullRequestStats pr mapFileAssessment ord).1.TopFilesChanged.Pairwise
        (fun a b => a.getTotalModifications ≥ b.getTotalModifications)
    ∧ (∀ x ∈ (getPullRequestStats pr mapFileAssessment ord).1.TopFilesChanged,
        ∀ y ∈ (getPullRequestStats pr mapFileAssessment ord).2.Files.drop (min 5 pr.Files.length),
          y.getTotalModifications ≤ x.getTotalModifications)
    ∧ (∀ k : Int,
        (getPullRequestStats pr mapFileAssessment ord).1.TopFilesChanged.filter
            (fun f => decide (f.getTotalModifications = k))
          <+: pr.Files.filter (fun f => decide (f.getTotalModifications = k))) := by
  rw [getPullRequestStats_TopFilesChanged, getPullRequestStats_snd, min_comm pr.Files.length 5]
  dsimp only
  have hs := sorted_moreModified pr.Files
  refine ⟨rfl, sortSliceStable_perm _ _, hs, fun k => stable_moreModified k _, ?_,
    hs.sublist (List.take_sublist _ _), ?_, ?_⟩
  · rw [List.length_take, sortSliceStable_length]
    omega
  · intro x hx y hy
    exact List.Sorted.rel_of_mem_take_of_mem_drop hs hx hy
  · intro k
    rw [← stable_moreModified k pr.Files]
    exact List.IsPrefix.filter _ ( List.take_prefix _ _)

/-! ## Go maps: keys and iteration -/

theorem mem_mapKeys_mapStore {V : Type} (m : GoMap V) (k k' : String) (v : V) :
    k' ∈ mapKeys (mapStore m k v) ↔ k' = k ∨ k' ∈ mapKeys m := by
  induction m with
  | nil => simp [mapStore, mapKeys]
  | cons e rest ih =>
    obtain ⟨k₀, v₀⟩ := e
    by_cases h₀ : k₀ = k
    · subst h₀
      simp [mapStore, mapKeys]
    · have ih' : k' ∈ List.map Prod.fst (mapStore rest k v)
          ↔ k' = k ∨ k' ∈ List.map Prod.fst rest := ih
      simp only [mapStore, h₀, if_false, mapKeys, List.map_cons, List.mem_cons, ih']
      tauto

theorem mapLookup_eq_none_iff {V : Type} (m : GoMap V) (k : String) :
    mapLookup m k = none ↔ k ∉ mapKeys m := by
  induction m with
  | nil => simp [mapLookup, mapKeys]
  | cons e rest ih =>
    obtain ⟨k₀, v₀⟩ := e
    have ih' : mapLookup rest k = none ↔ k ∉ List.map Prod.fst rest := ih
    by_cases h₀ : k₀ = k
    · subst h₀
      simp [mapLookup, mapKeys]
    · have h₁ : ¬ k = k₀ := fun h => h₀ h.symm
      simp only [mapLookup, h₀, if_false, mapKeys, List.map_cons, List.mem_cons, ih', h₁,
        false_or]

theorem insertAt_perm {α : Type} (x : α) (n : Nat) (l : List α) :
    (insertAt x n l).Perm (x :: l) := by
  induction l generalizing n with
  | nil => rw [insertAt_nil]
  | cons y ys ih =>
    cases n with
    | zero => exact List.Perm.refl _
    | succ n => exact ((List.Perm.cons y (ih n)).trans (List.Perm.swap x y ys))

/-- Whatever the order of iteration, a `range` loop visits every entry once. -/
theorem shuffle_perm {α : Type} (ord : MapOrder) (l : List α) : (shuffle ord l).Perm l := by
  induction l generalizing ord with
  | nil => exact List.Perm.refl _
  | cons x xs ih => exact (insertAt_perm x _ _).trans (List.Perm.cons x (ih ord.tail))

/-! ## The maps of `getChangedFilesStats` -/

theorem mem_mapKeys_registerFile (files : List File)
    (st : GoMap (List PullRequestData) × GoMap File) (k : String) :
    (k ∈ mapKeys (files.foldl registerFile st).1
        ↔ k ∈ mapKeys st.1 ∨ k ∈ files.map (fun f => f.Filename))
    ∧ (k ∈ mapKeys (files.foldl registerFile st).2
        ↔ k ∈ mapKeys st.2 ∨ k ∈ files.map (fun f => f.Filename)) := by
  induction files generalizing st with
  | nil => simp
  | cons f fs ih =>
    rw [List.foldl_cons]
    obtain ⟨h₁, h₂⟩ := ih (registerFile st f)
    rw [h₁, h₂]
    simp only [registerFile, mem_mapKeys_mapStore, List.map_cons, List.mem_cons]
    constructor <;> tauto

/-- Every file stored in `filePerFile` is stored under its own name. -/
theorem filePerFile_Filename (files : List File)
    (st : GoMap (List PullRequestData) × GoMap File)
    (hst : ∀ k f, mapLookup st.2 k = some f → f.Filename = k) (k : String) (f : File)
    (h : mapLookup (files.foldl registerFile st).2 k = some f) : f.Filename = k := by
  induction files generalizing st with
  | nil => exact hst k f h
  | cons g gs ih =>
    rw [List.foldl_cons] at h
    refine ih (registerFile st g) ?_ h
    intro k' f' h'
    by_cases hk : g.Filename = k'
    · subst hk
      simp only [registerFile, mapLookup_mapStore_same, Option.some.injEq] at h'
      rw [← h']
    · simp only [registerFile, mapLookup_mapStore_other _ _ _ _ hk] at h'
      exact hst k' f' h'

theorem mem_mapKeys_associate (data : PullRequestData) (files : List File)
    (prsPerFile : GoMap (List PullRequestData)) (k : String) :
    k ∈ mapKeys (files.foldl (associate data) prsPerFile)
      ↔ k ∈ mapKeys prsPerFile ∨ k ∈ files.map (fun f => f.Filename) := by
  induction files generalizing prsPerFile with
  | nil => simp
  | cons f fs ih =>
    rw [List.foldl_cons, ih]
    simp only [associate, mem_mapKeys_mapStore, List.map_cons, List.mem_cons]
    tauto

theorem mem_mapKeys_associatePR (prs : List PullRequest)
    (prsPerFile : GoMap (List PullRequestData)) (k : String) :
    k ∈ mapKeys (prs.foldl associatePR prsPerFile)
      ↔ k ∈ mapKeys prsPerFile ∨ ∃ pr ∈ prs, k ∈ pr.Files.map (fun f => f.Filename) := by
  induction prs generalizing prsPerFile with
  | nil => simp
  | cons pr rest ih =>
    rw [List.foldl_cons, ih]
    simp only [associatePR, mem_mapKeys_associate, List.mem_cons, exists_eq_or_imp]
    tauto

/-- Every entry of `getChangedFilesStats` is built from one key of `prsPerFile`,
which is a path of the flat list or of a file of some pull request. -/
theorem mem_getChangedFilesStats (tagCompare : TagCompare) (m : GoMap Assessment)
    (ord : MapOrder) (s : ChangedFileStats) (h : s ∈ getChangedFilesStats tagCompare m ord) :
    ∃ k : String,
      (k ∈ tagCompare.Files.map (fun f => f.Filename)
        ∨ ∃ pr ∈ tagCompare.PullRequests, k ∈ pr.Files.map (fun f => f.Filename))
      ∧ s.File = mapGet File.zero (tagCompare.Files.foldl registerFile ([], [])).2 k
      ∧ s.Assessment = mapGet "" m k := by
  unfold getChangedFilesStats at h
  rw [mem_sortSliceStable, List.mem_map] at h
  obtain ⟨kv, hkv, rfl⟩ := h
  have hmem := (shuffle_perm ord _).mem_iff.mp hkv
  have hk : kv.1 ∈ mapKeys (tagCompare.PullRequests.foldl associatePR
      (tagCompare.Files.foldl registerFile ([], [])).1) := List.mem_map_of_mem Prod.fst hmem
  rw [mem_mapKeys_associatePR, (mem_mapKeys_registerFile _ _ _).1] at hk
  refine ⟨kv.1, ?_, rfl, rfl⟩
  rcases hk with (hk | hk) | hk
  · simp [mapKeys] at hk
  · exact Or.inl hk
  · exact Or.inr hk

/-- The file stored in `filePerFile` under a path of the flat list has that path. -/
theorem mapGet_filePerFile_Filename (files : List File) (k : String)
    (hk : k ∈ files.map (fun f => f.Filename)) :
    (mapGet File.zero (files.foldl registerFile ([], [])).2 k).Filename = k := by
  have hkeys : k ∈ mapKeys (files.foldl registerFile ([], [])).2 :=
    ((mem_mapKeys_registerFile files ([], []) k).2).mpr (Or.inr hk)
  cases hl : mapLookup (files.foldl registerFile ([], [])).2 k with
  | none => exact absurd hkeys ((mapLookup_eq_none_iff _ _).mp hl)
  | some f =>
    have := filePerFile_Filename files ([], []) (fun k f h => by simp [mapLookup] at h) k f hl
    simpa [mapGet, hl] using this

theorem mapGet_filePerFile_of_not_mem (files : List File) (k : String)
    (hk : k ∉ files.map (fun f => f.Filename)) :
    mapGet File.zero (files.foldl registerFile ([], [])).2 k = File.zero := by
  have hkeys : k ∉ mapKeys (files.foldl registerFile ([], [])).2 := by
    rw [(mem_mapKeys_registerFile files ([], []) k).2]
    simpa [mapKeys] using hk
  simp [mapGet, (mapLookup_eq_none_iff _ _).mpr hkeys]

theorem mapGet_buildAssessmentMap (warn conf : List String) (p : String) :
    mapGet "" (buildAssessmentMap warn conf) p
      = if p ∈ conf then Conflict else if p ∈ warn then Warning else "" := by
  rw [mapGet, mapLookup_buildAssessmentMap]
  split_ifs <;> rfl

/-- C10, as amended: every `ChangedFileStats` of `GetAnalysis`'s output whose
file path is not empty carries a path of the flat list, and its `Assessment` is
`Conflict` if that path is in the conflict list, `Warning` if it is in the
warning list but not in the conflict list, and the empty string (the zero value
of `Assessment`, not the constant `Good`) if it is in neither list. -/
theorem fileStats_assessment (tagCompare : TagCompare)
    (filesChangedByQuorum expectedFileConflicts : List String)
    (prOrds : List MapOrder) (fileOrd : MapOrder)
    (s : ChangedFileStats)
    (hs : s ∈ (GetAnalysis tagCompare filesChangedByQuorum expectedFileConflicts prOrds
      fileOrd).fileStats)
    (hpath : s.File.Filename ≠ "") :
    s.File.Filename ∈ tagCompare.Files.map (fun g => g.Filename)
    ∧ s.Assessment
        = if s.File.Filename ∈ expectedFileConflicts then Conflict
          else if s.File.Filename ∈ filesChangedByQuorum then Warning
          else "" := by
  simp only [GetAnalysis, runGetAnalysis] at hs
  obtain ⟨k, -, hfile, hassess⟩ := mem_getChangedFilesStats _ _ _ s hs
  dsimp only at hfile
  have hflat : k ∈ tagCompare.Files.map (fun g => g.Filename) := by
    by_contra hk
    rw [hfile, mapGet_filePerFile_of_not_mem _ k hk] at hpath
    exact hpath rfl
  have hname : s.File.Filename = k := by
    rw [hfile]
    exact mapGet_filePerFile_Filename _ k hflat
  rw [hname, hassess, mapGet_buildAssessmentMap]
  exact ⟨hflat, rfl⟩

theorem fileStats_assessment_witness :
    (⟨[⟨1, "u", "t", "t1"⟩], ⟨"a.go", "modified", 2, 1, 3⟩, "Conflict"⟩ : ChangedFileStats)
        ∈ (GetAnalysis
            ⟨[⟨⟨1, "u", "t", "t1"⟩,
                [⟨"a.go", "modified", 2, 1, 3⟩, ⟨"c.go", "added", 1, 0, 1⟩]⟩],
              [⟨"a.go", "modified", 2, 1, 3⟩, ⟨"b.go", "added", 4, 0, 4⟩]⟩
            ["a.go", "b.go"] ["a.go"] [] []).fileStats
    ∧ ("a.go" : String) ≠ ""
    ∧ "a.go" ∈ [(⟨"a.go", "modified", 2, 1, 3⟩ : File), ⟨"b.go", "added", 4, 0, 4⟩].map
        (fun g => g.Filename)
    ∧ "Conflict"
        = if "a.go" ∈ ["a.go"] then Conflict else if "a.go" ∈ ["a.go", "b.go"] then Warning
          else "" :=
  ⟨by decide, by decide,
    fileStats_assessment
      ⟨[⟨⟨1, "u", "t", "t1"⟩,
          [⟨"a.go", "modified", 2, 1, 3⟩, ⟨"c.go", "added", 1, 0, 1⟩]⟩],
        [⟨"a.go", "modified", 2, 1, 3⟩, ⟨"b.go", "added", 4, 0, 4⟩]⟩
      ["a.go", "b.go"] ["a.go"] [] []
      ⟨[⟨1, "u", "t", "t1"⟩], ⟨"a.go", "modified", 2, 1, 3⟩, "Conflict"⟩
      (by decide) (by decide)⟩

/-- C10, counterexample: a file of the flat list that is in neither path list
gets the empty string as `Assessment`, which is not the constant `Good`. -/
theorem fileStats_assessment_not_Good :
    (GetAnalysis ⟨[], [⟨"a.go", "modified", 2, 1, 3⟩]⟩ [] [] [] []).fileStats
        = [⟨[], ⟨"a.go", "modified", 2, 1, 3⟩, ""⟩]
    ∧ ¬ (∀ s ∈ (GetAnalysis ⟨[], [⟨"a.go", "modified", 2, 1, 3⟩]⟩ [] [] [] []).fileStats,
          s.Assessment
            = if s.File.Filename ∈ ([] : List String) then Conflict
              else if s.File.Filename ∈ ([] : List String) then Warning else Good) := by
  decide

/-! ## Adequacy of the embedding of map iteration and of stable sorting -/

theorem insertAt_length_append {α : Type} (x : α) (a b : List α) :
    insertAt x a.length (a ++ b) = a ++ x :: b := by
  induction a with
  | nil => cases b <;> rfl
  | cons y ys ih => simp [insertAt, ih]

/-- Every rearrangement of the entries is the visiting order of some `MapOrder`. -/
theorem shuffle_surjective {α : Type} (l l' : List α) (h : l'.Perm l) :
    ∃ ord : MapOrder, shuffle ord l = l' := by
  induction l generalizing l' with
  | nil => exact ⟨[], (List.Perm.eq_nil h).symm ▸ rfl⟩
  | cons x xs ih =>
    have hx : x ∈ l' := h.symm.subset (List.mem_cons_self x xs)
    obtain ⟨a, b, rfl⟩ := List.append_of_mem hx
    have hab : (a ++ b).Perm xs :=
      List.Perm.cons_inv ((List.perm_middle.symm).trans h)
    obtain ⟨ord, hord⟩ := ih (a ++ b) hab
    refine ⟨a.length :: ord, ?_⟩
    simp [shuffle, hord, insertAt_length_append]

/-- A sequence has one stable sort only: two lists in non-decreasing order of the
key that agree, for every key, on the subsequence of the elements of that key,
are equal. -/
theorem eq_of_sorted_of_filter_eq {α κ : Type} [LinearOrder κ] (key : α → κ) (a b : List α)
    (ha : a.Pairwise (fun x y => key x ≤ key y)) (hb : b.Pairwise (fun x y => key x ≤ key y))
    (h : ∀ k : κ, a.filter (fun x => decide (key x = k)) = b.filter (fun x => decide (key x = k))) :
    a = b := by
  induction a generalizing b with
  | nil =>
    cases b with
    | nil => rfl
    | cons y ys =>
      have := h (key y)
      simp [List.filter_cons] at this
  | cons x xs ih =>
    cases b with
    | nil =>
      have := h (key x)
      simp [List.filter_cons] at this
    | cons y ys =>
      rw [List.pairwise_cons] at ha hb
      have hy : y ∈ x :: xs := by
        have hm : y ∈ (y :: ys).filter (fun z => decide (key z = key y)) := by
          simp [List.filter_cons]
        rw [← h (key y)] at hm
        exact (List.mem_filter.mp hm).1
      have hx : x ∈ y :: ys := by
        have hm : x ∈ (x :: xs).filter (fun z => decide (key z = key x)) := by
          simp [List.filter_cons]
        rw [h (key x)] at hm
        exact (List.mem_filter.mp hm).1
      have hxy : key x ≤ key y := by
        rcases List.mem_cons.mp hy with rfl | hy
        · exact le_refl _
        · exact ha.1 y hy
      have hyx : key y ≤ key x := by
        rcases List.mem_cons.mp hx with rfl | hx
        · exact le_refl _
        · exact hb.1 x hx
      have hkey : key y = key x := le_antisymm hyx hxy
      have hhead := h (key x)
      simp only [List.filter_cons, hkey, decide_True, if_true, List.cons.injEq] at hhead
      obtain ⟨rfl, htail⟩ := hhead
      congr 1
      refine ih ys ha.2 hb.2 ?_
      intro k
      by_cases hk : key x = k
      · subst hk
        exact htail
      · have := h k
        simpa [List.filter_cons, hk] using this

/-- The embedding of `sort.SliceStable` yields the only list that is a stable
sort of its argument. -/
theorem sortSliceStable_unique {α κ : Type} [LinearOrder κ] {less : α → α → Bool}
    {key : α → κ} (hk : IsKeyLess less key) (l l' : List α)
    (hsorted : l'.Pairwise (fun x y => key x ≤ key y))
    (hstable : ∀ k : κ, l'.filter (fun x => decide (key x = k))
      = l.filter (fun x => decide (key x = k))) :
    l' = sortSliceStable less l := by
  refine eq_of_sorted_of_filter_eq key l' _ hsorted (sortSliceStable_sorted hk l) ?_
  intro k
  rw [hstable k]
  exact (sortSliceStable_filter hk _
    (fun a b ha hb => (of_decide_eq_true ha).trans (of_decide_eq_true hb).symm) l).symm

/-! ## The keys of `prsPerFile` -/

theorem mapKeys_mapStore_nodup {V : Type} (m : GoMap V) (k : String) (v : V)
    (h : (mapKeys m).Nodup) : (mapKeys (mapStore m k v)).Nodup := by
  induction m with
  | nil => simp [mapStore, mapKeys]
  | cons e rest ih =>
    obtain ⟨k₀, v₀⟩ := e
    by_cases h₀ : k₀ = k
    · subst h₀
      simpa [mapStore, mapKeys] using h
    · have hn : k₀ ∉ mapKeys rest ∧ (mapKeys rest).Nodup := by
        simpa [mapKeys] using h
      have hmem := mem_mapKeys_mapStore rest k k₀ v
      have ih' := ih hn.2
      have hgoal : k₀ ∉ mapKeys (mapStore rest k v) ∧ (mapKeys (mapStore rest k v)).Nodup :=
        ⟨fun hc => by
          rcases hmem.mp hc with hc | hc
          · exact h₀ hc
          · exact hn.1 hc, ih'⟩
      simpa [mapStore, h₀, mapKeys] using hgoal

theorem mapKeys_foldl_nodup {V α : Type} (step : GoMap V → α → GoMap V)
    (hstep : ∀ m x, (mapKeys m).Nodup → (mapKeys (step m x)).Nodup) (xs : List α)
    (m : GoMap V) (h : (mapKeys m).Nodup) : (mapKeys (xs.foldl step m)).Nodup := by
  induction xs generalizing m with
  | nil => exact h
  | cons x xs ih => exact ih _ (hstep m x h)

theorem mapKeys_registerFile_nodup (files : List File)
    (st : GoMap (List PullRequestData) × GoMap File) (h : (mapKeys st.1).Nodup) :
    (mapKeys (files.foldl registerFile st).1).Nodup := by
  induction files generalizing st with
  | nil => exact h
  | cons f fs ih => exact ih _ (mapKeys_mapStore_nodup _ _ _ h)

/-- The keys of `prsPerFile` at line 150 are pairwise distinct. -/
theorem mapKeys_prsPerFile_nodup (tagCompare : TagCompare) :
    (mapKeys (tagCompare.PullRequests.foldl associatePR
      (tagCompare.Files.foldl registerFile ([], [])).1)).Nodup := by
  refine mapKeys_foldl_nodup associatePR ?_ _ _
    (mapKeys_registerFile_nodup _ _ (by simp [mapKeys]))
  intro m pr hm
  exact mapKeys_foldl_nodup (associate pr.Data)
    (fun m f hm => mapKeys_mapStore_nodup _ _ _ hm) _ _ hm

/-- The number of entries returned by `getChangedFilesStats` is the number of
distinct paths among the files of the flat list and the files of all pull
requests. -/
theorem getChangedFilesStats_length (tagCompare : TagCompare) (m : GoMap Assessment)
    (ord : MapOrder) :
    (getChangedFilesStats tagCompare m ord).length
      = (tagCompare.Files.map (fun f => f.Filename)
          ++ (tagCompare.PullRequests.map
                (fun pr => pr.Files.map (fun f => f.Filename))).flatten).dedup.length := by
  unfold getChangedFilesStats mapRange
  dsimp only
  rw [sortSliceStable_length, List.length_map, (shuffle_perm ord _).length_eq]
  have hlen : ∀ l : GoMap (List PullRequestData), l.length = (mapKeys l).length := fun l => by
    simp [mapKeys]
  rw [hlen]
  refine List.Perm.length_eq ?_
  rw [List.perm_ext_iff_of_nodup (mapKeys_prsPerFile_nodup tagCompare) (List.nodup_dedup _)]
  intro k
  rw [mem_mapKeys_associatePR, (mem_mapKeys_registerFile _ _ _).1, List.mem_dedup,
    List.mem_append, List.mem_flatten]
  simp [mapKeys]

/-! ## The claims on `getChangedFilesStats` and `getPullRequestStats` at concrete inputs -/

theorem shuffle_pair {α : Type} (ord : MapOrder) (x y : α) :
    shuffle ord [x, y] = [x, y] ∨ shuffle ord [x, y] = [y, x] := by
  have h : shuffle ord [x, y] = insertAt x (ord.headD 0) [y] := by
    simp [shuffle, insertAt_nil]
  rw [h]
  cases ord.headD 0 with
  | zero => exact Or.inl rfl
  | succ n => exact Or.inr (by simp [insertAt, insertAt_nil])

/-- C3, the code at a failing input: the flat list holds "a.go" only and the
pull request touches "b.go" only.  Whatever the order of the map iteration,
`getChangedFilesStats` returns a second entry, built for "b.go": it lists the
pull request and carries the zero `File`, whose path (the empty string) is not a
path of the flat list. -/
theorem getChangedFilesStats_entry_outside_flat_list (ord : MapOrder) :
    getChangedFilesStats
        ⟨[⟨⟨1, "u", "t", "t1"⟩, [⟨"b.go", "added", 1, 0, 1⟩]⟩],
          [⟨"a.go", "modified", 2, 1, 3⟩]⟩ [] ord
      = [⟨[], ⟨"a.go", "modified", 2, 1, 3⟩, ""⟩, ⟨[⟨1, "u", "t", "t1"⟩], File.zero, ""⟩]
    ∧ File.zero.Filename ∉ [(⟨"a.go", "modified", 2, 1, 3⟩ : File)].map (fun f => f.Filename) := by
  refine ⟨?_, by decide⟩
  have hmap : List.foldl associatePR
      (List.foldl registerFile ([], []) [(⟨"a.go", "modified", 2, 1, 3⟩ : File)]).1
      [(⟨⟨1, "u", "t", "t1"⟩, [⟨"b.go", "added", 1, 0, 1⟩]⟩ : PullRequest)]
      = [("a.go", []), ("b.go", [⟨1, "u", "t", "t1"⟩])] := by decide
  unfold getChangedFilesStats mapRange
  dsimp only
  rw [hmap]
  rcases shuffle_pair ord ("a.go", ([] : List PullRequestData))
    ("b.go", [(⟨1, "u", "t", "t1"⟩ : PullRequestData)]) with h | h <;> rw [h] <;> decide

/-- C4, the code at a failing input: the flat list has one distinct path and the
pull request touches another file.  Whatever the mapping and the order of the
map iteration, `getChangedFilesStats` returns two entries. -/
theorem getChangedFilesStats_count_exceeds_flat_paths (mapFileAssessment : GoMap Assessment)
    (ord : MapOrder) :
    (getChangedFilesStats
        ⟨[⟨⟨1, "u", "t", "t1"⟩, [⟨"b.go", "added", 1, 0, 1⟩]⟩],
          [⟨"a.go", "modified", 2, 1, 3⟩]⟩ mapFileAssessment ord).length = 2
    ∧ ([(⟨"a.go", "modified", 2, 1, 3⟩ : File)].map (fun f => f.Filename)).dedup.length = 1 := by
  refine ⟨?_, by decide⟩
  have hmap : List.foldl associatePR
      (List.foldl registerFile ([], []) [(⟨"a.go", "modified", 2, 1, 3⟩ : File)]).1
      [(⟨⟨1, "u", "t", "t1"⟩, [⟨"b.go", "added", 1, 0, 1⟩]⟩ : PullRequest)]
      = [("a.go", []), ("b.go", [⟨1, "u", "t", "t1"⟩])] := by decide
  unfold getChangedFilesStats mapRange
  dsimp only
  rw [hmap, sortSliceStable_length, List.length_map, (shuffle_perm ord _).length_eq]
  rfl

/-- C8, the code at a failing input: "a.go" is mapped to `Conflict` and "b.go"
is not mapped.  The assessment computed for the files ["a.go"] is `Conflict`;
the assessment computed for ["a.go", "b.go"] is `Good`, which is less severe. -/
theorem assessment_lowered_by_later_file :
    (getPullRequestStats ⟨⟨1, "u", "t", "t1"⟩, [⟨"a.go", "modified", 2, 1, 3⟩]⟩
        (buildAssessmentMap [] ["a.go"]) []).1.Assessment = Conflict
    ∧ (getPullRequestStats
        ⟨⟨1, "u", "t", "t1"⟩, [⟨"a.go", "modified", 2, 1, 3⟩] ++ [⟨"b.go", "added", 1, 0, 1⟩]⟩
        (buildAssessmentMap [] ["a.go"]) []).1.Assessment = Good
    ∧ severity Good < severity Conflict := by
  decide

/-- C9, as amended: for a pull request without files `getPullRequestStats`
returns the five counts 0, an empty `TopFilesChanged`, an empty
`TopPackagesChanged` and, as `Assessment`, the empty string: the zero value of
the type, which differs from the constant `Good` and which `getAssessmentEmoji`
renders like `Good`.  The pull request is left as it was. -/
theorem getPullRequestStats_no_files (data : PullRequestData)
    (mapFileAssessment : GoMap Assessment) (ord : MapOrder) :
    getPullRequestStats ⟨data, []⟩ mapFileAssessment ord
        = (⟨data, 0, 0, 0, 0, 0, [], [], ""⟩, ⟨data, []⟩)
    ∧ ("" : Assessment) ≠ Good
    ∧ getAssessmentEmoji "" = getAssessmentEmoji Good := by
  refine ⟨?_, by decide, by decide⟩
  simp [getPullRequestStats, initStats, sortSliceStable, mapRange, shuffle]

/-- C9, counterexample: the `Assessment` returned for a pull request without
files is not the constant `Good`. -/
theorem getPullRequestStats_no_files_not_Good :
    (getPullRequestStats ⟨⟨1, "u", "t", "t1"⟩, []⟩ [] []).1.Assessment ≠ Good := by
  decide

/-! ## The counters of `getPullRequestStats` -/

theorem wrapInt64_add_left (a b : Int) : wrapInt64 (wrapInt64 a + b) = wrapInt64 (a + b) := by
  unfold wrapInt64
  omega

theorem wrapInt64_of_inRange (a : Int) (h₁ : -(2 ^ 63) ≤ a) (h₂ : a < 2 ^ 63) :
    wrapInt64 a = a := by
  unfold wrapInt64
  omega

theorem fileStep_FilesAddedCount (m : GoMap Assessment) (st : PullRequestStats × GoMap Int)
    (file : File) :
    (fileStep m st file).1.FilesAddedCount
      = st.1.FilesAddedCount + if file.Status = "added" then 1 else 0 := by
  unfold fileStep
  dsimp only
  split_ifs <;> simp

theorem fileStep_FilesModifiedCount (m : GoMap Assessment) (st : PullRequestStats × GoMap Int)
    (file : File) :
    (fileStep m st file).1.FilesModifiedCount
      = st.1.FilesModifiedCount + if file.Status = "modified" then 1 else 0 := by
  unfold fileStep
  dsimp only
  split_ifs <;> simp_all

theorem fileStep_FilesRemovedCount (m : GoMap Assessment) (st : PullRequestStats × GoMap Int)
    (file : File) :
    (fileStep m st file).1.FilesRemovedCount
      = st.1.FilesRemovedCount
        + if file.Status ≠ "added" ∧ file.Status ≠ "modified" then 1 else 0 := by
  unfold fileStep
  dsimp only
  split_ifs <;> simp_all

theorem fileStep_LinesAddedCount (m : GoMap Assessment) (st : PullRequestStats × GoMap Int)
    (file : File) :
    (fileStep m st file).1.LinesAddedCount
      = wrapInt64 (st.1.LinesAddedCount + file.Additions) := by
  unfold fileStep
  dsimp only
  split_ifs <;> rfl

theorem fileStep_LinesRemovedCount (m : GoMap Assessment) (st : PullRequestStats × GoMap Int)
    (file : File) :
    (fileStep m st file).1.LinesRemovedCount
      = wrapInt64 (st.1.LinesRemovedCount + file.Deletions) := by
  unfold fileStep
  dsimp only
  split_ifs <;> rfl

theorem fileStep_Assessment (m : GoMap Assessment) (st : PullRequestStats × GoMap Int)
    (file : File) :
    (fileStep m st file).1.Assessment = (mapLookup m file.Filename).getD Good := by
  unfold fileStep
  dsimp only
  cases h : mapLookup m file.Filename with
  | none => split_ifs <;> simp_all
  | some v =>
    have hg : Good ≠ Conflict := by decide
    split_ifs <;> simp_all [mapGet]

theorem foldl_fileStep_count (m : GoMap Assessment) (field : PullRequestStats → Int)
    (p : File → Prop) [DecidablePred p]
    (hstep : ∀ st file, field (fileStep m st file).1 = field st.1 + if p file then 1 else 0)
    (fs : List File) (st : PullRequestStats × GoMap Int) :
    field (fs.foldl (fileStep m) st).1
      = field st.1 + ((fs.filter (fun f => decide (p f))).length : Int) := by
  induction fs generalizing st with
  | nil => simp
  | cons f fs ih =>
    rw [List.foldl_cons, ih, hstep, List.filter_cons]
    by_cases hp : p f
    · simp [hp]
      ring
    · simp [hp]

theorem foldl_fileStep_lines (m : GoMap Assessment) (field : PullRequestStats → Int)
    (amount : File → Int)
    (hstep : ∀ st file, field (fileStep m st file).1 = wrapInt64 (field st.1 + amount file))
    (fs : List File) (st : PullRequestStats × GoMap Int) (x : Int)
    (hst : field st.1 = wrapInt64 x) :
    field (fs.foldl (fileStep m) st).1 = wrapInt64 (x + (fs.map amount).sum) := by
  induction fs generalizing st x with
  | nil => simpa using hst
  | cons f fs ih =>
    rw [List.foldl_cons, ih (fileStep m st f) (x + amount f)]
    · rw [List.map_cons, List.sum_cons, add_assoc]
    · rw [hstep, hst, wrapInt64_add_left]

theorem getPullRequestStats_foldl (pr : PullRequest) (m : GoMap Assessment) (ord : MapOrder) :
    (getPullRequestStats pr m ord).1.FilesAddedCount
        = (pr.Files.foldl (fileStep m) (initStats pr.Data, [])).1.FilesAddedCount
    ∧ (getPullRequestStats pr m ord).1.FilesModifiedCount
        = (pr.Files.foldl (fileStep m) (initStats pr.Data, [])).1.FilesModifiedCount
    ∧ (getPullRequestStats pr m ord).1.FilesRemovedCount
        = (pr.Files.foldl (fileStep m) (initStats pr.Data, [])).1.FilesRemovedCount
    ∧ (getPullRequestStats pr m ord).1.LinesAddedCount
        = (pr.Files.foldl (fileStep m) (initStats pr.Data, [])).1.LinesAddedCount
    ∧ (getPullRequestStats pr m ord).1.LinesRemovedCount
        = (pr.Files.foldl (fileStep m) (initStats pr.Data, [])).1.LinesRemovedCount
    ∧ (getPullRequestStats pr m ord).1.Assessment
        = (pr.Files.foldl (fileStep m) (initStats pr.Data, [])).1.Assessment :=
  ⟨rfl, rfl, rfl, rfl, rfl, rfl⟩

theorem getPullRequestStats_LinesAddedCount (pr : PullRequest) (m : GoMap Assessment)
    (ord : MapOrder) :
    (getPullRequestStats pr m ord).1.LinesAddedCount
      = wrapInt64 ((pr.Files.map (fun f => f.Additions)).sum) := by
  rw [(getPullRequestStats_foldl pr m ord).2.2.2.1,
    foldl_fileStep_lines m (fun s => s.LinesAddedCount) (fun f => f.Additions)
      (fileStep_LinesAddedCount m) pr.Files _ 0 rfl, zero_add]

theorem getPullRequestStats_LinesRemovedCount (pr : PullRequest) (m : GoMap Assessment)
    (ord : MapOrder) :
    (getPullRequestStats pr m ord).1.LinesRemovedCount
      = wrapInt64 ((pr.Files.map (fun f => f.Deletions)).sum) := by
  rw [(getPullRequestStats_foldl pr m ord).2.2.2.2.1,
    foldl_fileStep_lines m (fun s => s.LinesRemovedCount) (fun f => f.Deletions)
      (fileStep_LinesRemovedCount m) pr.Files _ 0 rfl, zero_add]

/-- C15: `getPullRequestStats` puts every file into exactly one bucket by its
status: `FilesAddedCount` is the number of files with status "added",
`FilesModifiedCount` the number with status "modified", and `FilesRemovedCount`
the number of files with any other status string. -/
theorem file_counts_by_status (pr : PullRequest) (mapFileAssessment : GoMap Assessment)
    (ord : MapOrder) :
    (getPullRequestStats pr mapFileAssessment ord).1.FilesAddedCount
        = ((pr.Files.filter (fun f => decide (f.Status = "added"))).length : Int)
    ∧ (getPullRequestStats pr mapFileAssessment ord).1.FilesModifiedCount
        = ((pr.Files.filter (fun f => decide (f.Status = "modified"))).length : Int)
    ∧ (getPullRequestStats pr mapFileAssessment ord).1.FilesRemovedCount
        = ((pr.Files.filter
            (fun f => decide (f.Status ≠ "added" ∧ f.Status ≠ "modified"))).length : Int) := by
  obtain ⟨h₁, h₂, h₃, -⟩ := getPullRequestStats_foldl pr mapFileAssessment ord
  rw [h₁, h₂, h₃]
  refine ⟨?_, ?_, ?_⟩
  · rw [foldl_fileStep_count mapFileAssessment (fun s => s.FilesAddedCount)
      (fun f => f.Status = "added") (fileStep_FilesAddedCount mapFileAssessment)]
    simp [initStats]
  · rw [foldl_fileStep_count mapFileAssessment (fun s => s.FilesModifiedCount)
      (fun f => f.Status = "modified") (fileStep_FilesModifiedCount mapFileAssessment)]
    simp [initStats]
  · rw [foldl_fileStep_count mapFileAssessment (fun s => s.FilesRemovedCount)
      (fun f => f.Status ≠ "added" ∧ f.Status ≠ "modified")
      (fileStep_FilesRemovedCount mapFileAssessment)]
    simp [initStats]

/-- C16, as amended: `LinesAddedCount` is the sum of `Additions` over all files
of the pull request, and `LinesRemovedCount` the sum of `Deletions`, both
reduced to Go's 64-bit `int`; they are the sums themselves whenever the sums
lie within the range of `int`, and they are the same for every permutation of
the file list. -/
theorem line_counts_are_wrapped_sums (pr : PullRequest) (mapFileAssessment : GoMap Assessment)
    (ord ord' : MapOrder) (files : List File) (hperm : files.Perm pr.Files) :
    (getPullRequestStats pr mapFileAssessment ord).1.LinesAddedCount
        = wrapInt64 ((pr.Files.map (fun f => f.Additions)).sum)
    ∧ (getPullRequestStats pr mapFileAssessment ord).1.LinesRemovedCount
        = wrapInt64 ((pr.Files.map (fun f => f.Deletions)).sum)
    ∧ (-(2 ^ 63) ≤ (pr.Files.map (fun f => f.Additions)).sum
        ∧ (pr.Files.map (fun f => f.Additions)).sum < 2 ^ 63 →
        (getPullRequestStats pr mapFileAssessment ord).1.LinesAddedCount
          = (pr.Files.map (fun f => f.Additions)).sum)
    ∧ (-(2 ^ 63) ≤ (pr.Files.map (fun f => f.Deletions)).sum
        ∧ (pr.Files.map (fun f => f.Deletions)).sum < 2 ^ 63 →
        (getPullRequestStats pr mapFileAssessment ord).1.LinesRemovedCount
          = (pr.Files.map (fun f => f.Deletions)).sum)
    ∧ (getPullRequestStats ⟨pr.Data, files⟩ mapFileAssessment ord').1.LinesAddedCount
        = (getPullRequestStats pr mapFileAssessment ord).1.LinesAddedCount
    ∧ (getPullRequestStats ⟨pr.Data, files⟩ mapFileAssessment ord').1.LinesRemovedCount
        = (getPullRequestStats pr mapFileAssessment ord).1.LinesRemovedCount := by
  rw [getPullRequestStats_LinesAddedCount, getPullRequestStats_LinesRemovedCount,
    getPullRequestStats_LinesAddedCount, getPullRequestStats_LinesRemovedCount]
  refine ⟨rfl, rfl, fun h => wrapInt64_of_inRange _ h.1 h.2,
    fun h => wrapInt64_of_inRange _ h.1 h.2, ?_, ?_⟩
  · rw [(hperm.map _).sum_eq]
  · rw [(hperm.map _).sum_eq]

theorem line_counts_are_wrapped_sums_witness :
    [(⟨"b.go", "added", 7, 0, 7⟩ : File), ⟨"a.go", "modified", 5, 2, 7⟩].Perm
        [⟨"a.go", "modified", 5, 2, 7⟩, ⟨"b.go", "added", 7, 0, 7⟩]
    ∧ (getPullRequestStats
          ⟨⟨1, "u", "t", "t1"⟩, [⟨"a.go", "modified", 5, 2, 7⟩, ⟨"b.go", "added", 7, 0, 7⟩]⟩
          [] []).1.LinesAddedCount = 12
    ∧ (getPullRequestStats
          ⟨⟨1, "u", "t", "t1"⟩, [⟨"b.go", "added", 7, 0, 7⟩, ⟨"a.go", "modified", 5, 2, 7⟩]⟩
          [] []).1.LinesAddedCount
        = (getPullRequestStats
          ⟨⟨1, "u", "t", "t1"⟩, [⟨"a.go", "modified", 5, 2, 7⟩, ⟨"b.go", "added", 7, 0, 7⟩]⟩
          [] []).1.LinesAddedCount :=
  ⟨List.Perm.swap _ _ _,
    ((line_counts_are_wrapped_sums
      ⟨⟨1, "u", "t", "t1"⟩, [⟨"a.go", "modified", 5, 2, 7⟩, ⟨"b.go", "added", 7, 0, 7⟩]⟩
      [] [] [] [⟨"b.go", "added", 7, 0, 7⟩, ⟨"a.go", "modified", 5, 2, 7⟩]
      (List.Perm.swap _ _ _)).2.2.1 (by decide)),
    (line_counts_are_wrapped_sums
      ⟨⟨1, "u", "t", "t1"⟩, [⟨"a.go", "modified", 5, 2, 7⟩, ⟨"b.go", "added", 7, 0, 7⟩]⟩
      [] [] [] [⟨"b.go", "added", 7, 0, 7⟩, ⟨"a.go", "modified", 5, 2, 7⟩]
      (List.Perm.swap _ _ _)).2.2.2.2.1⟩

/-- C16, counterexample: two files with 2^62 additions each.  The sum of the
additions is 2^63; `LinesAddedCount` is -2^63. -/
theorem line_count_overflows :
    (getPullRequestStats
        ⟨⟨1, "u", "t", "t1"⟩,
          [⟨"a.go", "modified", 4611686018427387904, 0, 0⟩,
            ⟨"b.go", "modified", 4611686018427387904, 0, 0⟩]⟩ [] []).1.LinesAddedCount
      = -9223372036854775808
    ∧ ([(⟨"a.go", "modified", 4611686018427387904, 0, 0⟩ : File),
          ⟨"b.go", "modified", 4611686018427387904, 0, 0⟩].map (fun f => f.Additions)).sum
      = 9223372036854775808
    ∧ (getPullRequestStats
        ⟨⟨1, "u", "t", "t1"⟩,
          [⟨"a.go", "modified", 4611686018427387904, 0, 0⟩,
            ⟨"b.go", "modified", 4611686018427387904, 0, 0⟩]⟩ [] []).1.LinesAddedCount
      ≠ ([(⟨"a.go", "modified", 4611686018427387904, 0, 0⟩ : File),
          ⟨"b.go", "modified", 4611686018427387904, 0, 0⟩].map (fun f => f.Additions)).sum := by
  decide

/-- C19: for a pull request with a non-empty file list, the `Assessment`
returned by `getPullRequestStats` is determined by the last file alone: it is
the level the mapping gives to the last file's path when that path is in the
mapping, and `Good` otherwise, whatever the earlier files are. -/
theorem assessment_of_last_file (data : PullRequestData) (files : List File) (last : File)
    (mapFileAssessment : GoMap Assessment) (ord : MapOrder) :
    (getPullRequestStats ⟨data, files ++ [last]⟩ mapFileAssessment ord).1.Assessment
      = match mapLookup mapFileAssessment last.Filename with
        | some level => level
        | none => Good := by
  rw [(getPullRequestStats_foldl _ mapFileAssessment ord).2.2.2.2.2]
  simp only [List.foldl_append, List.foldl_cons, List.foldl_nil, fileStep_Assessment]
  cases mapLookup mapFileAssessment last.Filename <;> rfl

/-! ## The package bucket key -/

theorem lastIndexFrom_of_not_mem (c : Char) (i : Nat) (acc : Int) (l : List Char)
    (h : c ∉ l) : lastIndexFrom c i acc l = acc := by
  induction l generalizing i acc with
  | nil => rfl
  | cons x xs ih =>
    rw [List.mem_cons, not_or] at h
    have hx : ¬ x = c := fun e => h.1 e.symm
    simp only [lastIndexFrom, hx, if_false]
    exact ih _ _ h.2

theorem lastIndexFrom_append (c : Char) (i : Nat) (acc : Int) (a b : List Char)
    (h : c ∉ b) : lastIndexFrom c i acc (a ++ c :: b) = ((i + a.length : Nat) : Int) := by
  induction a generalizing i acc with
  | nil =>
    simp only [List.nil_append, lastIndexFrom, if_true, List.length_nil, Nat.add_zero]
    exact lastIndexFrom_of_not_mem c _ _ b h
  | cons x xs ih =>
    show lastIndexFrom c (i + 1) (if x = c then (i : Int) else acc) (xs ++ c :: b) = _
    rw [ih, List.length_cons]
    congr 1
    omega

theorem packagePath_of_no_slash (b : List Char) (hb : '/' ∉ b) :
    packagePath (String.mk b) = String.mk b := by
  simp [packagePath, lastIndexSlash, lastIndexFrom_of_not_mem _ _ _ _ hb]

theorem packagePath_of_slash (a b : List Char) (hb : '/' ∉ b) :
    packagePath (String.mk (a ++ '/' :: b))
      = if a = [] then String.mk ('/' :: b) else String.mk a := by
  cases a with
  | nil =>
    simp [packagePath, lastIndexSlash, lastIndexFrom, lastIndexFrom_of_not_mem _ _ _ _ hb]
  | cons x xs =>
    have h := lastIndexFrom_append '/' 0 (-1) (x :: xs) b hb
    simp only [packagePath, lastIndexSlash, h]
    simp

/-- C17, as amended: the package bucket key of a path is the part of the path
before its last "/" whenever that "/" is not the first character of the path,
and the whole path when the path contains no "/" or when its only "/" is its
first character; so "a/b/x.go" gives "a/b", "x.go" gives "x.go" and "/x.go"
gives "/x.go".  Here `b` is the final segment and `a` what precedes the last
"/". -/
theorem packagePath_cases (a b : List Char) (hb : '/' ∉ b) :
    packagePath (String.mk b) = String.mk b
    ∧ (a ≠ [] → packagePath (String.mk (a ++ '/' :: b)) = String.mk a)
    ∧ packagePath (String.mk ('/' :: b)) = String.mk ('/' :: b)
    ∧ packagePath "a/b/x.go" = "a/b"
    ∧ packagePath "x.go" = "x.go"
    ∧ packagePath "/x.go" = "/x.go" := by
  refine ⟨packagePath_of_no_slash b hb, fun ha => ?_, ?_, by decide, by decide, by decide⟩
  · rw [packagePath_of_slash a b hb, if_neg ha]
  · have h := packagePath_of_slash [] b hb
    simpa using h

theorem packagePath_cases_witness :
    '/' ∉ ['x', '.', 'g', 'o']
    ∧ packagePath (String.mk (['p', 'k', 'g'] ++ '/' :: ['x', '.', 'g', 'o']))
        = String.mk ['p', 'k', 'g'] :=
  ⟨by decide,
    (packagePath_cases ['p', 'k', 'g'] ['x', '.', 'g', 'o'] (by decide)).2.1 (by decide)⟩

/-- C17, counterexample: the path "/x.go", whose only separator is at position
0, does not give the empty key. -/
theorem packagePath_leading_slash_not_empty :
    packagePath "/x.go" = "/x.go" ∧ packagePath "/x.go" ≠ "" := by
  decide

/-! ## `getAssessmentEmoji` -/

/-- C20: `getAssessmentEmoji` returns the conflict marker exactly when the
assessment is `Conflict`, the warning sign exactly when it is `Warning`, and the
check mark for every other value, among them `Good` and the empty string.  Every
result is a symbol of the legend, possibly followed by the variation selector
U+FE0F (the legend writes the warning sign without it). -/
theorem getAssessmentEmoji_cases (assessment : Assessment) :
    (getAssessmentEmoji assessment = "‼️" ↔ assessment = Conflict)
    ∧ (getAssessmentEmoji assessment = "⚠️" ↔ assessment = Warning)
    ∧ (getAssessmentEmoji assessment = "✅" ↔ assessment ≠ Conflict ∧ assessment ≠ Warning)
    ∧ getAssessmentEmoji Good = "✅"
    ∧ getAssessmentEmoji "" = "✅"
    ∧ (∃ symbol ∈ legendSymbols,
        getAssessmentEmoji assessment = symbol
        ∨ getAssessmentEmoji assessment = symbol.push (Char.ofNat 0xFE0F)) := by
  have h₁ : ("⚠️" : String) ≠ "‼️" := by decide
  have h₂ : ("✅" : String) ≠ "‼️" := by decide
  have h₃ : ("✅" : String) ≠ "⚠️" := by decide
  have h₄ : ("‼️" : String) ≠ "⚠️" := by decide
  have h₅ : Warning ≠ Conflict := by decide
  refine ⟨?_, ?_, ?_, by decide, by decide, ?_⟩
  · by_cases hc : assessment = Conflict
    · simp [getAssessmentEmoji, hc]
    · by_cases hw : assessment = Warning
      · simp [getAssessmentEmoji, hw, h₁, h₅]
      · simp [getAssessmentEmoji, hc, hw, h₂]
  · by_cases hc : assessment = Conflict
    · simp [getAssessmentEmoji, hc, h₄, h₅.symm]
    · by_cases hw : assessment = Warning
      · simp [getAssessmentEmoji, hw, h₅]
      · simp [getAssessmentEmoji, hc, hw, h₃]
  · by_cases hc : assessment = Conflict
    · simp [getAssessmentEmoji, hc, h₂.symm]
    · by_cases hw : assessment = Warning
      · simp [getAssessmentEmoji, hw, h₅, h₃.symm]
      · simp [getAssessmentEmoji, hc, hw]
  · by_cases hc : assessment = Conflict
    · exact ⟨"‼️", by decide, Or.inl (by simp [getAssessmentEmoji, hc])⟩
    · by_cases hw : assessment = Warning
      · refine ⟨"⚠", by decide, Or.inr ?_⟩
        rw [hw]
        decide
      · exact ⟨"✅", by decide, Or.inl (by simp [getAssessmentEmoji, hc, hw])⟩

/-! ## Go maps: entries -/

theorem mapLookup_of_mem {V : Type} (m : GoMap V) (k : String) (v : V)
    (hnd : (mapKeys m).Nodup) (h : (k, v) ∈ m) : mapLookup m k = some v := by
  induction m with
  | nil => exact absurd h (List.not_mem_nil _)
  | cons e rest ih =>
    obtain ⟨k₀, v₀⟩ := e
    have hn : k₀ ∉ mapKeys rest ∧ (mapKeys rest).Nodup := by
      simpa [mapKeys] using hnd
    rw [List.mem_cons] at h
    rcases h with h | h
    · cases h
      simp [mapLookup]
    · have hk : k ∈ mapKeys rest := List.mem_map_of_mem Prod.fst h
      have hne : ¬ k₀ = k := fun e => hn.1 (e ▸ hk)
      simp only [mapLookup, hne, if_false]
      exact ih hn.2 h

theorem mem_of_mapLookup {V : Type} (m : GoMap V) (k : String) (v : V)
    (h : mapLookup m k = some v) : (k, v) ∈ m := by
  induction m with
  | nil => simp [mapLookup] at h
  | cons e rest ih =>
    obtain ⟨k₀, v₀⟩ := e
    by_cases h₀ : k₀ = k
    · subst h₀
      simp only [mapLookup, if_true, Option.some.injEq] at h
      subst h
      exact List.mem_cons_self _ _
    · simp only [mapLookup, h₀, if_false] at h
      exact List.mem_cons_of_mem _ (ih h)

theorem mapGet_mapStore_same {V : Type} (zero : V) (m : GoMap V) (k : String) (v : V) :
    mapGet zero (mapStore m k v) k = v := by
  simp [mapGet, mapLookup_mapStore_same]

theorem mapGet_mapStore_other {V : Type} (zero : V) (m : GoMap V) (k k' : String) (v : V)
    (h : k ≠ k') : mapGet zero (mapStore m k v) k' = mapGet zero m k' := by
  simp [mapGet, mapLookup_mapStore_other _ _ _ _ h]

/-- Every entry visited by a `range` loop is an entry of the map, read back by
its key. -/
theorem mem_mapRange {V : Type} (zero : V) (ord : MapOrder) (m : GoMap V)
    (hnd : (mapKeys m).Nodup) (kv : String × V) :
    kv ∈ mapRange ord m ↔ kv.1 ∈ mapKeys m ∧ kv.2 = mapGet zero m kv.1 := by
  unfold mapRange
  rw [(shuffle_perm ord m).mem_iff]
  constructor
  · intro h
    refine ⟨List.mem_map_of_mem Prod.fst h, ?_⟩
    simp [mapGet, mapLookup_of_mem m kv.1 kv.2 hnd h]
  · rintro ⟨hk, hv⟩
    cases hl : mapLookup m kv.1 with
    | none => exact absurd hk ((mapLookup_eq_none_iff _ _).mp hl)
    | some v =>
      have hmem := mem_of_mapLookup m kv.1 v hl
      have hv' : kv.2 = v := by
        rw [hv]
        simp [mapGet, hl]
      have hkv : kv = (kv.1, v) := Prod.ext rfl hv'
      rw [hkv]
      exact hmem

/-! ## The package buckets of `getPullRequestStats` -/

theorem fileStep_snd (m : GoMap Assessment) (st : PullRequestStats × GoMap Int) (file : File) :
    (fileStep m st file).2 = countPackage st.2 (packagePath file.Filename) := by
  unfold fileStep countPackage
  rfl

theorem foldl_fileStep_snd (m : GoMap Assessment) (fs : List File)
    (st : PullRequestStats × GoMap Int) :
    (fs.foldl (fileStep m) st).2
      = (fs.map (fun f => packagePath f.Filename)).foldl countPackage st.2 := by
  induction fs generalizing st with
  | nil => rfl
  | cons f fs ih => rw [List.foldl_cons, ih, fileStep_snd, List.map_cons, List.foldl_cons]

theorem mem_mapKeys_countPackage (keys : List String) (mp : GoMap Int) (k : String) :
    k ∈ mapKeys (keys.foldl countPackage mp) ↔ k ∈ mapKeys mp ∨ k ∈ keys := by
  induction keys generalizing mp with
  | nil => simp
  | cons key rest ih =>
    rw [List.foldl_cons, ih]
    simp only [countPackage, mem_mapKeys_mapStore, List.mem_cons]
    tauto

theorem mapKeys_countPackage_nodup (keys : List String) (mp : GoMap Int)
    (h : (mapKeys mp).Nodup) : (mapKeys (keys.foldl countPackage mp)).Nodup :=
  mapKeys_foldl_nodup countPackage (fun _ _ hm => mapKeys_mapStore_nodup _ _ _ hm) keys mp h

theorem mapGet_countPackage (keys : List String) (mp : GoMap Int) (k : String) :
    mapGet 0 (keys.foldl countPackage mp) k = mapGet 0 mp k + (keys.count k : Int) := by
  induction keys generalizing mp with
  | nil => simp
  | cons key rest ih =>
    rw [List.foldl_cons, ih]
    by_cases hk : key = k
    · subst hk
      simp only [countPackage, mapGet_mapStore_same, List.count_cons_self]
      push_cast
      ring
    · have hne : (key == k) = false := by simpa using hk
      simp only [countPackage, mapGet_mapStore_other _ _ _ _ _ hk, List.count_cons, hne]
      simp

theorem sum_mapStore_succ (mp : GoMap Int) (k : String) :
    ((mapStore mp k (mapGet 0 mp k + 1)).map Prod.snd).sum = (mp.map Prod.snd).sum + 1 := by
  induction mp with
  | nil => simp [mapStore, mapGet, mapLookup]
  | cons e rest ih =>
    obtain ⟨k₀, v₀⟩ := e
    by_cases h₀ : k₀ = k
    · subst h₀
      simp [mapStore, mapGet, mapLookup]
      ring
    · have hg : mapGet 0 ((k₀, v₀) :: rest) k = mapGet 0 rest k := by
        simp [mapGet, mapLookup, h₀]
      rw [hg]
      simp only [mapStore, h₀, if_false, List.map_cons, List.sum_cons, ih]
      ring

theorem sum_countPackage (keys : List String) (mp : GoMap Int) :
    ((keys.foldl countPackage mp).map Prod.snd).sum
      = (mp.map Prod.snd).sum + (keys.length : Int) := by
  induction keys generalizing mp with
  | nil => simp
  | cons key rest ih =>
    rw [List.foldl_cons, ih, countPackage, sum_mapStore_succ, List.length_cons]
    push_cast
    ring

theorem getPullRequestStats_TopPackagesChanged (pr : PullRequest) (m : GoMap Assessment)
    (ord : MapOrder) :
    (getPullRequestStats pr m ord).1.TopPackagesChanged
      = sortSliceStable moreFiles
          ((mapRange ord ((pr.Files.map (fun f => packagePath f.Filename)).foldl
              countPackage [])).map (fun kv => PackageStats.mk kv.1 kv.2)) := by
  simp [getPullRequestStats, foldl_fileStep_snd]

theorem sorted_moreFiles (l : List PackageStats) :
    (sortSliceStable moreFiles l).Pairwise (fun a b => a.Count ≥ b.Count) :=
  sortSliceStable_sorted moreFiles_isKeyLess l

/-- C18: `TopPackagesChanged` holds exactly one entry per distinct package
bucket key among the files of the pull request, the `Count` of every entry is
the number of files with that bucket key, the counts add up to the number of
files, and the entries are in non-increasing order of `Count`. -/
theorem TopPackagesChanged_counts_buckets (pr : PullRequest)
    (mapFileAssessment : GoMap Assessment) (ord : MapOrder) :
    ((getPullRequestStats pr mapFileAssessment ord).1.TopPackagesChanged.map
        (fun e => e.Name)).Perm
        (pr.Files.map (fun f => packagePath f.Filename)).dedup
    ∧ (∀ e ∈ (getPullRequestStats pr mapFileAssessment ord).1.TopPackagesChanged,
        e.Count = (((pr.Files.map (fun f => packagePath f.Filename)).count e.Name : Nat) : Int)
        ∧ e.Count
          = (((pr.Files.filter
                (fun f => decide (packagePath f.Filename = e.Name))).length : Nat) : Int))
    ∧ ((getPullRequestStats pr mapFileAssessment ord).1.TopPackagesChanged.map
        (fun e => e.Count)).sum = (pr.Files.length : Int)
    ∧ (getPullRequestStats pr mapFileAssessment ord).1.TopPackagesChanged.Pairwise
        (fun a b => a.Count ≥ b.Count) := by
  rw [getPullRequestStats_TopPackagesChanged]
  have hnd : (mapKeys ((pr.Files.map (fun f => packagePath f.Filename)).foldl
      countPackage [])).Nodup := mapKeys_countPackage_nodup _ [] (by simp [mapKeys])
  have hperm := (sortSliceStable_perm moreFiles
    ((mapRange ord ((pr.Files.map (fun f => packagePath f.Filename)).foldl
      countPackage [])).map (fun kv => PackageStats.mk kv.1 kv.2))).trans
    ((shuffle_perm ord _).map (fun kv : String × Int => PackageStats.mk kv.1 kv.2))
  refine ⟨?_, ?_, ?_, sorted_moreFiles _⟩
  · refine (hperm.map (fun e => e.Name)).trans ?_
    rw [List.map_map]
    refine (List.perm_ext_iff_of_nodup (by simpa [mapKeys] using hnd) (List.nodup_dedup _)).mpr ?_
    intro k
    have hk := mem_mapKeys_countPackage (pr.Files.map (fun f => packagePath f.Filename)) [] k
    simp only [mapKeys, List.map_nil, List.not_mem_nil, false_or] at hk
    rw [List.mem_dedup, ← hk]
    rfl
  · intro e he
    have he' := hperm.mem_iff.mp he
    rw [List.mem_map] at he'
    obtain ⟨kv, hkv, rfl⟩ := he'
    have hl := mapLookup_of_mem _ kv.1 kv.2 hnd hkv
    have hg := mapGet_countPackage (pr.Files.map (fun f => packagePath f.Filename)) [] kv.1
    have hv : kv.2 = (((pr.Files.map (fun f => packagePath f.Filename)).count kv.1 : Nat) : Int) := by
      simpa [mapGet, hl, mapLookup] using hg
    refine ⟨hv, ?_⟩
    rw [hv, List.count, List.countP_eq_length_filter, List.filter_map, List.length_map]
    rfl
  · rw [(hperm.map (fun e => e.Count)).sum_eq, List.map_map]
    have hs := sum_countPackage (pr.Files.map (fun f => packagePath f.Filename)) []
    simpa using hs

/-! ## The entries of `getChangedFilesStats` -/

theorem mapGet_registerFile_nil (files : List File)
    (st : GoMap (List PullRequestData) × GoMap File)
    (hst : ∀ k, mapGet [] st.1 k = []) (k : String) :
    mapGet [] (files.foldl registerFile st).1 k = [] := by
  induction files generalizing st with
  | nil => exact hst k
  | cons f fs ih =>
    rw [List.foldl_cons]
    refine ih _ ?_
    intro k'
    by_cases hk : f.Filename = k'
    · subst hk
      simp [registerFile, mapGet_mapStore_same]
    · simp only [registerFile, mapGet_mapStore_other _ _ _ _ _ hk]
      exact hst k'

theorem mapGet_associate (data : PullRequestData) (files : List File)
    (prsPerFile : GoMap (List PullRequestData)) (p : String) :
    mapGet [] (files.foldl (associate data) prsPerFile) p
      = mapGet [] prsPerFile p
        ++ (files.filter (fun f => decide (f.Filename = p))).map (fun _ => data) := by
  induction files generalizing prsPerFile with
  | nil => simp
  | cons f fs ih =>
    rw [List.foldl_cons, ih, List.filter_cons]
    by_cases hk : f.Filename = p
    · subst hk
      simp [associate, mapGet_mapStore_same]
    · simp [associate, mapGet_mapStore_other _ _ _ _ _ hk, hk]

theorem mapGet_associatePR (prs : List PullRequest)
    (prsPerFile : GoMap (List PullRequestData)) (p : String) :
    mapGet [] (prs.foldl associatePR prsPerFile) p
      = mapGet [] prsPerFile p
        ++ prs.flatMap (fun pr =>
            (pr.Files.filter (fun f => decide (f.Filename = p))).map (fun _ => pr.Data)) := by
  induction prs generalizing prsPerFile with
  | nil => simp
  | cons pr rest ih =>
    rw [List.foldl_cons, ih, associatePR, mapGet_associate, List.flatMap_cons, List.append_assoc]

/-- The pull requests recorded in `prsPerFile` under a path at line 150. -/
theorem mapGet_prsPerFile (tagCompare : TagCompare) (p : String) :
    mapGet [] (tagCompare.PullRequests.foldl associatePR
        (tagCompare.Files.foldl registerFile ([], [])).1) p
      = tagCompare.PullRequests.flatMap (fun pr =>
          (pr.Files.filter (fun f => decide (f.Filename = p))).map (fun _ => pr.Data)) := by
  rw [mapGet_associatePR, mapGet_registerFile_nil _ _ (fun k => by simp [mapGet, mapLookup])]
  rfl

/-- The entries of `getChangedFilesStats`: one per key of `prsPerFile`, that is,
per distinct path of the flat list and of the files of the pull requests. -/
theorem mem_getChangedFilesStats_iff (tagCompare : TagCompare) (m : GoMap Assessment)
    (ord : MapOrder) (s : ChangedFileStats) :
    s ∈ getChangedFilesStats tagCompare m ord
      ↔ ∃ k : String,
          (k ∈ tagCompare.Files.map (fun f => f.Filename)
            ∨ ∃ pr ∈ tagCompare.PullRequests, k ∈ pr.Files.map (fun f => f.Filename))
          ∧ s = ⟨tagCompare.PullRequests.flatMap (fun pr =>
                  (pr.Files.filter (fun f => decide (f.Filename = k))).map (fun _ => pr.Data)),
                mapGet File.zero (tagCompare.Files.foldl registerFile ([], [])).2 k,
                mapGet "" m k⟩ := by
  unfold getChangedFilesStats
  dsimp only
  rw [mem_sortSliceStable, List.mem_map]
  have hkeys : ∀ k, k ∈ mapKeys (tagCompare.PullRequests.foldl associatePR
      (tagCompare.Files.foldl registerFile ([], [])).1)
      ↔ (k ∈ tagCompare.Files.map (fun f => f.Filename)
        ∨ ∃ pr ∈ tagCompare.PullRequests, k ∈ pr.Files.map (fun f => f.Filename)) := by
    intro k
    rw [mem_mapKeys_associatePR, (mem_mapKeys_registerFile _ _ _).1]
    simp [mapKeys]
  constructor
  · rintro ⟨kv, hkv, rfl⟩
    rw [mem_mapRange [] ord _ (mapKeys_prsPerFile_nodup tagCompare), hkeys,
      mapGet_prsPerFile] at hkv
    exact ⟨kv.1, hkv.1, by rw [hkv.2]⟩
  · rintro ⟨k, hk, rfl⟩
    refine ⟨(k, tagCompare.PullRequests.flatMap (fun pr =>
      (pr.Files.filter (fun f => decide (f.Filename = k))).map (fun _ => pr.Data))), ?_, rfl⟩
    rw [mem_mapRange [] ord _ (mapKeys_prsPerFile_nodup tagCompare), hkeys, mapGet_prsPerFile]
    exact ⟨hk, rfl⟩

/-- C11: for every path `p` of the flat file list, `getChangedFilesStats`
returns an entry for `p` whose `AssociatedPRs` is the list, in snapshot order,
of the records of the pull requests whose file list contains a file with path
`p`, one entry per such file; every returned entry that carries the path `p`
has that list (`p` not being the empty path of the blank `File`); and every
record in the list belongs to a pull request that touches `p`. -/
theorem AssociatedPRs_in_snapshot_order (tagCompare : TagCompare)
    (mapFileAssessment : GoMap Assessment) (ord : MapOrder) (p : String)
    (hp : p ∈ tagCompare.Files.map (fun f => f.Filename)) :
    (∃ s ∈ getChangedFilesStats tagCompare mapFileAssessment ord,
        s.File.Filename = p
        ∧ s.AssociatedPRs
          = tagCompare.PullRequests.flatMap (fun pr =>
              (pr.Files.filter (fun f => decide (f.Filename = p))).map (fun _ => pr.Data)))
    ∧ (p ≠ "" → ∀ s ∈ getChangedFilesStats tagCompare mapFileAssessment ord,
        s.File.Filename = p →
        s.AssociatedPRs
          = tagCompare.PullRequests.flatMap (fun pr =>
              (pr.Files.filter (fun f => decide (f.Filename = p))).map (fun _ => pr.Data)))
    ∧ (∀ d ∈ tagCompare.PullRequests.flatMap (fun pr =>
              (pr.Files.filter (fun f => decide (f.Filename = p))).map (fun _ => pr.Data)),
        ∃ pr ∈ tagCompare.PullRequests,
          pr.Data = d ∧ p ∈ pr.Files.map (fun f => f.Filename)) := by
  refine ⟨?_, ?_, ?_⟩
  · refine ⟨_, (mem_getChangedFilesStats_iff tagCompare mapFileAssessment ord _).mpr
      ⟨p, Or.inl hp, rfl⟩, ?_, rfl⟩
    exact mapGet_filePerFile_Filename _ p hp
  · intro hne s hs hname
    obtain ⟨k, -, rfl⟩ := (mem_getChangedFilesStats_iff tagCompare mapFileAssessment ord s).mp hs
    dsimp only at hname ⊢
    by_cases hk : k ∈ tagCompare.Files.map (fun f => f.Filename)
    · rw [mapGet_filePerFile_Filename _ k hk] at hname
      rw [hname]
    · rw [mapGet_filePerFile_of_not_mem _ k hk] at hname
      exact absurd hname.symm hne
  · intro d hd
    rw [List.mem_flatMap] at hd
    obtain ⟨pr, hpr, hd⟩ := hd
    rw [List.mem_map] at hd
    obtain ⟨f, hf, rfl⟩ := hd
    rw [List.mem_filter] at hf
    exact ⟨pr, hpr, rfl, List.mem_map.mpr ⟨f, hf.1, of_decide_eq_true hf.2⟩⟩

theorem AssociatedPRs_in_snapshot_order_witness :
    "a.go" ∈ [(⟨"a.go", "modified", 2, 1, 3⟩ : File), ⟨"b.go", "added", 4, 0, 4⟩].map
        (fun f => f.Filename)
    ∧ ∃ s ∈ getChangedFilesStats
          ⟨[⟨⟨1, "u1", "t1", "c1"⟩, [⟨"b.go", "added", 4, 0, 4⟩]⟩,
            ⟨⟨2, "u2", "t2", "c2"⟩, [⟨"a.go", "modified", 1, 1, 2⟩]⟩,
            ⟨⟨3, "u3", "t3", "c3"⟩,
              [⟨"b.go", "modified", 1, 0, 1⟩, ⟨"a.go", "modified", 1, 0, 1⟩]⟩],
            [⟨"a.go", "modified", 2, 1, 3⟩, ⟨"b.go", "added", 4, 0, 4⟩]⟩ [] [],
        s.File.Filename = "a.go"
        ∧ s.AssociatedPRs = [⟨2, "u2", "t2", "c2"⟩, ⟨3, "u3", "t3", "c3"⟩] :=
  ⟨by decide,
    (AssociatedPRs_in_snapshot_order
      ⟨[⟨⟨1, "u1", "t1", "c1"⟩, [⟨"b.go", "added", 4, 0, 4⟩]⟩,
        ⟨⟨2, "u2", "t2", "c2"⟩, [⟨"a.go", "modified", 1, 1, 2⟩]⟩,
        ⟨⟨3, "u3", "t3", "c3"⟩,
          [⟨"b.go", "modified", 1, 0, 1⟩, ⟨"a.go", "modified", 1, 0, 1⟩]⟩],
        [⟨"a.go", "modified", 2, 1, 3⟩, ⟨"b.go", "added", 4, 0, 4⟩]⟩ [] [] "a.go"
      (by decide)).1⟩

/-- C12: the entries returned by `getChangedFilesStats` are in non-increasing
order of the file's total modifications, for every pair and so for every
adjacent pair of entries.  On a flat list of two files with totals 10 and 20, in
that order, the file with total 20 comes out first. -/
theorem fileStats_sorted_descending (tagCompare : TagCompare)
    (mapFileAssessment : GoMap Assessment) (ord : MapOrder) :
    (getChangedFilesStats tagCompare mapFileAssessment ord).Pairwise
        (fun a b => a.File.getTotalModifications ≥ b.File.getTotalModifications)
    ∧ (getChangedFilesStats tagCompare mapFileAssessment ord).Chain'
        (fun a b => a.File.getTotalModifications ≥ b.File.getTotalModifications)
    ∧ (getChangedFilesStats
          ⟨[], [⟨"a.go", "modified", 6, 4, 10⟩, ⟨"b.go", "modified", 15, 5, 20⟩]⟩
          mapFileAssessment ord).map (fun s => s.File)
        = [⟨"b.go", "modified", 15, 5, 20⟩, ⟨"a.go", "modified", 6, 4, 10⟩] := by
  have hs : (getChangedFilesStats tagCompare mapFileAssessment ord).Pairwise
      (fun a b => a.File.getTotalModifications ≥ b.File.getTotalModifications) :=
    sortSliceStable_sorted moreModifiedStats_isKeyLess _
  refine ⟨hs, List.Pairwise.chain' hs, ?_⟩
  have hmap : List.foldl associatePR
      (List.foldl registerFile ([], [])
        [(⟨"a.go", "modified", 6, 4, 10⟩ : File), ⟨"b.go", "modified", 15, 5, 20⟩]).1 []
      = [("a.go", []), ("b.go", [])] := by decide
  have hfiles : (List.foldl registerFile ([], [])
        [(⟨"a.go", "modified", 6, 4, 10⟩ : File), ⟨"b.go", "modified", 15, 5, 20⟩]).2
      = [("a.go", ⟨"a.go", "modified", 6, 4, 10⟩), ("b.go", ⟨"b.go", "modified", 15, 5, 20⟩)] := by
    decide
  have ha : mapGet File.zero
      [("a.go", (⟨"a.go", "modified", 6, 4, 10⟩ : File)),
        ("b.go", ⟨"b.go", "modified", 15, 5, 20⟩)] "a.go" = ⟨"a.go", "modified", 6, 4, 10⟩ := by
    decide
  have hb : mapGet File.zero
      [("a.go", (⟨"a.go", "modified", 6, 4, 10⟩ : File)),
        ("b.go", ⟨"b.go", "modified", 15, 5, 20⟩)] "b.go" = ⟨"b.go", "modified", 15, 5, 20⟩ := by
    decide
  have hlt : ∀ x y : Assessment, moreModifiedStats
      ⟨[], ⟨"b.go", "modified", 15, 5, 20⟩, x⟩ ⟨[], ⟨"a.go", "modified", 6, 4, 10⟩, y⟩ = true :=
    fun _ _ => rfl
  have hgt : ∀ x y : Assessment, moreModifiedStats
      ⟨[], ⟨"a.go", "modified", 6, 4, 10⟩, x⟩ ⟨[], ⟨"b.go", "modified", 15, 5, 20⟩, y⟩ = false :=
    fun _ _ => rfl
  unfold getChangedFilesStats mapRange
  dsimp only
  rw [hmap, hfiles]
  rcases shuffle_pair ord ("a.go", ([] : List PullRequestData))
    ("b.go", ([] : List PullRequestData)) with h | h <;> rw [h] <;>
    simp [sortSliceStable, insertStable, ha, hb, hlt, hgt]

/-! ## The effect of `GetAnalysis` on the snapshot -/

theorem sortSliceStable_of_sorted {α κ : Type} [LinearOrder κ] {less : α → α → Bool}
    {key : α → κ} (hk : IsKeyLess less key) (l : List α)
    (h : l.Pairwise (fun x y => key x ≤ key y)) : sortSliceStable less l = l :=
  (sortSliceStable_unique hk l l h (fun _ => rfl)).symm

theorem runGetAnalysis_snd (tagCompare : TagCompare) (warn conf : List String)
    (prOrds : List MapOrder) (fileOrd : MapOrder) :
    (runGetAnalysis tagCompare warn conf prOrds fileOrd).2
      = ⟨tagCompare.PullRequests.map
          (fun pr => ⟨pr.Data, sortSliceStable moreModified pr.Files⟩), tagCompare.Files⟩ := by
  simp [runGetAnalysis, processPullRequests_snd]

/-- C13, as amended: `GetAnalysis` changes its input in one respect only.  After
the call the snapshot holds the same pull requests, in the same order and with
the same data, and the same flat file list; the file list of every pull request
holds the same files, rearranged into the stable descending order of total
modifications (so a file list that is already in non-increasing order of the
total is unchanged). -/
theorem GetAnalysis_sorts_pull_request_files (tagCompare : TagCompare)
    (filesChangedByQuorum expectedFileConflicts : List String)
    (prOrds : List MapOrder) (fileOrd : MapOrder) :
    (runGetAnalysis tagCompare filesChangedByQuorum expectedFileConflicts prOrds fileOrd).2
        = ⟨tagCompare.PullRequests.map
            (fun pr => ⟨pr.Data, sortSliceStable moreModified pr.Files⟩), tagCompare.Files⟩
    ∧ (∀ files : List File,
        (sortSliceStable moreModified files).Perm files
        ∧ (sortSliceStable moreModified files).Pairwise
            (fun a b => a.getTotalModifications ≥ b.getTotalModifications)
        ∧ (∀ k : Int,
            (sortSliceStable moreModified files).filter
                (fun f => decide (f.getTotalModifications = k))
              = files.filter (fun f => decide (f.getTotalModifications = k)))
        ∧ (files.Pairwise (fun a b => a.getTotalModifications ≥ b.getTotalModifications) →
            sortSliceStable moreModified files = files)) := by
  refine ⟨runGetAnalysis_snd _ _ _ _ _, fun files => ⟨sortSliceStable_perm _ _,
    sorted_moreModified files, fun k => stable_moreModified k files, fun h => ?_⟩⟩
  exact sortSliceStable_of_sorted moreModified_isKeyLess files h

/-- C13, counterexample: a pull request whose files have the totals 1 and 5, in
that order.  After the call its file list holds the file with total 5 first. -/
theorem GetAnalysis_reorders_input :
    (runGetAnalysis
        ⟨[⟨⟨1, "u", "t", "t1"⟩,
            [⟨"a.go", "modified", 1, 0, 1⟩, ⟨"b.go", "modified", 3, 2, 5⟩]⟩], []⟩
        [] [] [] []).2.PullRequests.map (fun pr => pr.Files)
      = [[⟨"b.go", "modified", 3, 2, 5⟩, ⟨"a.go", "modified", 1, 0, 1⟩]]
    ∧ (runGetAnalysis
        ⟨[⟨⟨1, "u", "t", "t1"⟩,
            [⟨"a.go", "modified", 1, 0, 1⟩, ⟨"b.go", "modified", 3, 2, 5⟩]⟩], []⟩
        [] [] [] []).2.PullRequests.map (fun pr => pr.Files)
      ≠ [[⟨"a.go", "modified", 1, 0, 1⟩, ⟨"b.go", "modified", 3, 2, 5⟩]] := by
  decide

/-! ## The influence of the order of map iteration -/

theorem insertStable_forall₂ {α : Type} (less : α → α → Bool) (R : α → α → Prop)
    (hR : ∀ a a' b b', R a a' → R b b' → less a b = less a' b')
    (x x' : α) (hx : R x x') (l l' : List α) (h : List.Forall₂ R l l') :
    List.Forall₂ R (insertStable less x l) (insertStable less x' l') := by
  induction h with
  | nil => exact List.Forall₂.cons hx List.Forall₂.nil
  | cons hy hrest ih =>
    rename_i y y' ys ys'
    unfold insertStable
    rw [hR y y' x x' hy hx]
    split
    · exact List.Forall₂.cons hy ih
    · exact List.Forall₂.cons hx (List.Forall₂.cons hy hrest)

theorem sortSliceStable_forall₂ {α : Type} (less : α → α → Bool) (R : α → α → Prop)
    (hR : ∀ a a' b b', R a a' → R b b' → less a b = less a' b')
    (l l' : List α) (h : List.Forall₂ R l l') :
    List.Forall₂ R (sortSliceStable less l) (sortSliceStable less l') := by
  induction h with
  | nil => exact List.Forall₂.nil
  | cons hx _ ih =>
    rw [sortSliceStable_cons, sortSliceStable_cons]
    exact insertStable_forall₂ less R hR _ _ hx _ _ ih

theorem getPullRequestStats_agree (pr : PullRequest) (m : GoMap Assessment)
    (ord ord' : MapOrder) :
    agreeUpToPackageOrder (getPullRequestStats pr m ord).1 (getPullRequestStats pr m ord').1 := by
  refine ⟨rfl, ?_⟩
  rw [getPullRequestStats_TopPackagesChanged, getPullRequestStats_TopPackagesChanged]
  refine (sortSliceStable_perm _ _).trans (List.Perm.trans ?_ (sortSliceStable_perm _ _).symm)
  exact List.Perm.map _ ((shuffle_perm ord _).trans (shuffle_perm ord' _).symm)

theorem processPullRequests_agree (m : GoMap Assessment) (prs : List PullRequest)
    (ords ords' : List MapOrder) :
    List.Forall₂ agreeUpToPackageOrder ((processPullRequests m prs ords).map Prod.fst)
      ((processPullRequests m prs ords').map Prod.fst) := by
  induction prs generalizing ords ords' with
  | nil => exact List.Forall₂.nil
  | cons pr rest ih =>
    simp only [processPullRequests, List.map_cons]
    exact List.Forall₂.cons (getPullRequestStats_agree pr m _ _) (ih _ _)

theorem closedEarlier_agree (a a' b b' : PullRequestStats)
    (ha : agreeUpToPackageOrder a a') (hb : agreeUpToPackageOrder b b') :
    closedEarlier a b = closedEarlier a' b' := by
  have h₁ : a.Data = a'.Data := by
    have h := ha.1
    simp only [PullRequestStats.mk.injEq] at h
    exact h.1
  have h₂ : b.Data = b'.Data := by
    have h := hb.1
    simp only [PullRequestStats.mk.injEq] at h
    exact h.1
  simp [closedEarlier, h₁, h₂]

theorem mem_processPullRequests (m : GoMap Assessment) (prs : List PullRequest)
    (ords : List MapOrder) (x : PullRequestStats × PullRequest)
    (h : x ∈ processPullRequests m prs ords) :
    ∃ pr ∈ prs, ∃ ord : MapOrder, x = getPullRequestStats pr m ord := by
  induction prs generalizing ords with
  | nil => simp [processPullRequests] at h
  | cons pr rest ih =>
    simp only [processPullRequests, List.mem_cons] at h
    rcases h with h | h
    · exact ⟨pr, List.mem_cons_self _ _, _, h⟩
    · obtain ⟨pr', hpr', ord, hx⟩ := ih _ h
      exact ⟨pr', List.mem_cons_of_mem _ hpr', ord, hx⟩

/-- C14, as amended: the output of `GetAnalysis` is determined by its inputs up
to the order of tied entries.  For two runs on the same snapshot and path lists,
whatever the orders in which the maps are visited: the `prStats` of the two runs
agree entry by entry in every field, except that the `TopPackagesChanged` of
corresponding entries hold the same buckets in possibly different orders, each
in non-increasing order of `Count`; the `fileStats` of the two runs hold the
same entries, each in non-increasing order of total modifications; and the
snapshot is left in the same state. -/
theorem GetAnalysis_determined_up_to_ties (tagCompare : TagCompare)
    (filesChangedByQuorum expectedFileConflicts : List String)
    (prOrds prOrds' : List MapOrder) (fileOrd fileOrd' : MapOrder) :
    List.Forall₂ agreeUpToPackageOrder
        (GetAnalysis tagCompare filesChangedByQuorum expectedFileConflicts prOrds fileOrd).prStats
        (GetAnalysis tagCompare filesChangedByQuorum expectedFileConflicts prOrds'
          fileOrd').prStats
    ∧ (∀ s ∈ (GetAnalysis tagCompare filesChangedByQuorum expectedFileConflicts prOrds
          fileOrd).prStats,
        s.TopPackagesChanged.Pairwise (fun a b => a.Count ≥ b.Count))
    ∧ (GetAnalysis tagCompare filesChangedByQuorum expectedFileConflicts prOrds
          fileOrd).fileStats.Perm
        (GetAnalysis tagCompare filesChangedByQuorum expectedFileConflicts prOrds'
          fileOrd').fileStats
    ∧ (GetAnalysis tagCompare filesChangedByQuorum expectedFileConflicts prOrds
          fileOrd).fileStats.Pairwise
        (fun a b => a.File.getTotalModifications ≥ b.File.getTotalModifications)
    ∧ (runGetAnalysis tagCompare filesChangedByQuorum expectedFileConflicts prOrds fileOrd).2
        = (runGetAnalysis tagCompare filesChangedByQuorum expectedFileConflicts prOrds'
            fileOrd').2 := by
  refine ⟨?_, ?_, ?_, ?_, ?_⟩
  · exact sortSliceStable_forall₂ closedEarlier agreeUpToPackageOrder closedEarlier_agree _ _
      (processPullRequests_agree _ _ _ _)
  · intro s hs
    simp only [GetAnalysis, runGetAnalysis, mem_sortSliceStable, List.mem_map] at hs
    obtain ⟨x, hx, rfl⟩ := hs
    obtain ⟨pr, -, ord, rfl⟩ := mem_processPullRequests _ _ _ x hx
    rw [getPullRequestStats_TopPackagesChanged]
    exact sorted_moreFiles _
  · simp only [GetAnalysis, runGetAnalysis, processPullRequests_snd]
    unfold getChangedFilesStats mapRange
    dsimp only
    refine (sortSliceStable_perm _ _).trans (List.Perm.trans ?_ (sortSliceStable_perm _ _).symm)
    exact List.Perm.map _ ((shuffle_perm fileOrd _).trans (shuffle_perm fileOrd' _).symm)
  · exact sortSliceStable_sorted moreModifiedStats_isKeyLess _
  · rw [runGetAnalysis_snd, runGetAnalysis_snd]

/-- C14, counterexample: a pull request with the files "a/x.go" and "b/y.go",
both in the flat list, both of total 1.  Two runs that visit `prsPerFile` in
different orders return the two `ChangedFileStats` in different orders, and two
runs that visit `mapPackageChanged` in different orders return the two package
buckets in different orders. -/
theorem GetAnalysis_depends_on_map_order :
    (GetAnalysis
        ⟨[⟨⟨1, "u", "t", "t1"⟩,
            [⟨"a/x.go", "modified", 1, 0, 1⟩, ⟨"b/y.go", "modified", 1, 0, 1⟩]⟩],
          [⟨"a/x.go", "modified", 1, 0, 1⟩, ⟨"b/y.go", "modified", 1, 0, 1⟩]⟩
        [] [] [[]] []).fileStats.map (fun s => s.File.Filename) = ["a/x.go", "b/y.go"]
    ∧ (GetAnalysis
        ⟨[⟨⟨1, "u", "t", "t1"⟩,
            [⟨"a/x.go", "modified", 1, 0, 1⟩, ⟨"b/y.go", "modified", 1, 0, 1⟩]⟩],
          [⟨"a/x.go", "modified", 1, 0, 1⟩, ⟨"b/y.go", "modified", 1, 0, 1⟩]⟩
        [] [] [[]] [1]).fileStats.map (fun s => s.File.Filename) = ["b/y.go", "a/x.go"]
    ∧ (GetAnalysis
        ⟨[⟨⟨1, "u", "t", "t1"⟩,
            [⟨"a/x.go", "modified", 1, 0, 1⟩, ⟨"b/y.go", "modified", 1, 0, 1⟩]⟩],
          [⟨"a/x.go", "modified", 1, 0, 1⟩, ⟨"b/y.go", "modified", 1, 0, 1⟩]⟩
        [] [] [[]] []).prStats.map (fun s => s.TopPackagesChanged)
        = [[⟨"a", 1⟩, ⟨"b", 1⟩]]
    ∧ (GetAnalysis
        ⟨[⟨⟨1, "u", "t", "t1"⟩,
            [⟨"a/x.go", "modified", 1, 0, 1⟩, ⟨"b/y.go", "modified", 1, 0, 1⟩]⟩],
          [⟨"a/x.go", "modified", 1, 0, 1⟩, ⟨"b/y.go", "modified", 1, 0, 1⟩]⟩
        [] [] [[1]] []).prStats.map (fun s => s.TopPackagesChanged)
        = [[⟨"b", 1⟩, ⟨"a", 1⟩]] := by
  decide

end UpgradeBot
